import Mathlib

/-!
Shallow embedding of the ffg-engine ECS core (`packages/ecs/src/lib`):
the component-id registry, archetype storage, the world mutation
protocol, query execution, and the system scheduler (per-phase
topological sort and conflict-aware batching).

JavaScript `Map`s are embedded as insertion-ordered association lists,
JavaScript `Set`s as insertion-ordered duplicate-free lists, the
arbitrary-precision `bigint` archetype keys as `Nat`, and thrown
exceptions as `Except` values.  Component data is a type parameter `α`;
as all values of the model are immutable, the deep `clone` used for
`read`-mode query results is the identity on them.
-/

namespace FFG

/-- JS `Map.get`: first entry with the given key. -/
def aget {κ ν : Type} [DecidableEq κ] : List (κ × ν) → κ → Option ν
  | [], _ => none
  | (k, v) :: rest, key => if k = key then some v else aget rest key

/-- JS `Map.has`. -/
def ahas {κ ν : Type} [DecidableEq κ] (l : List (κ × ν)) (key : κ) : Bool :=
  (aget l key).isSome

/-- JS `Map.set`: overwrite in place when the key is present (keeping its
insertion position), otherwise append at the end. -/
def aset {κ ν : Type} [DecidableEq κ] : List (κ × ν) → κ → ν → List (κ × ν)
  | [], key, v => [(key, v)]
  | (k, w) :: rest, key, v =>
    if k = key then (key, v) :: rest else (k, w) :: aset rest key v

/-- JS `Map.delete` (and `delete obj[key]`): drop the first entry with the key. -/
def adel {κ ν : Type} [DecidableEq κ] : List (κ × ν) → κ → List (κ × ν)
  | [], _ => []
  | (k, w) :: rest, key =>
    if k = key then rest else (k, w) :: adel rest key

/-- JS `new Set(list)`: keep the first occurrence of each element, in order. -/
def jsSetOf {σ : Type} [DecidableEq σ] (l : List σ) : List σ :=
  l.foldl (fun acc n => if n ∈ acc then acc else acc ++ [n]) []

/-! ### Errors

The source throws `Error` objects with message strings; the model keeps
the information of each message as a structured error value. -/

/-- The failure cases of the ECS core. -/
inductive WErr where
  /-- `Entity ${entity} is missing component "${name}"` (archetype insert). -/
  | missingComponent (entity : Nat) (name : String)
  /-- `Entity ${entity} not found in archetype`. -/
  | entityNotInArchetype (entity : Nat)
  /-- `Index ${index} out of bounds for entity array`. -/
  | indexOutOfBounds (index : Nat)
  /-- `Component "${name}" is not part of this archetype`. -/
  | componentNotInArchetype (name : String)
  /-- `Component "${name}" is not registered.` -/
  | unregisteredComponent (name : String)
  /-- `Entity ${entity} not found.` (world layer). -/
  | entityNotFound (entity : Nat)
  /-- `Archetype must have at least one component`. -/
  | emptyArchetype
  /-- A JS `TypeError` from dereferencing a `Map.get` that returned
  `undefined` under a non-null assertion. -/
  | mapGetUndefined
deriving DecidableEq

/-- Structural decidable equality for `Except` results, used to evaluate
the model on concrete inputs. -/
instance {ε β : Type} [DecidableEq ε] [DecidableEq β] : DecidableEq (Except ε β) := fun a b =>
  match a, b with
  | .error e₁, .error e₂ =>
      if h : e₁ = e₂ then .isTrue (by rw [h]) else .isFalse (by simp [h])
  | .error _, .ok _ => .isFalse (by simp)
  | .ok _, .error _ => .isFalse (by simp)
  | .ok b₁, .ok b₂ =>
      if h : b₁ = b₂ then .isTrue (by rw [h]) else .isFalse (by simp [h])

/-! ### Component registry (`component.ts`) -/

/-- `ComponentIDRegistry`: name-to-bit table plus the next free bit. -/
structure ComponentIDRegistry where
  componentToBit : List (String × Nat)
  nextBit : Nat
deriving DecidableEq

namespace ComponentIDRegistry

/-- `register(name)`: return the existing bit if present, otherwise assign
`nextBit` and increment it.  Returns the bit together with the updated
registry. -/
def register (r : ComponentIDRegistry) (name : String) : Nat × ComponentIDRegistry :=
  match aget r.componentToBit name with
  | some bit => (bit, r)
  | none =>
      (r.nextBit,
       { componentToBit := r.componentToBit ++ [(name, r.nextBit)],
         nextBit := r.nextBit + 1 })

/-- `getBit(name)`: fails when the name was never registered. -/
def getBit (r : ComponentIDRegistry) (name : String) : Except WErr Nat :=
  match aget r.componentToBit name with
  | some bit => .ok bit
  | none => .error (.unregisteredComponent name)

/-- The empty registry a fresh `World` starts from. -/
def empty : ComponentIDRegistry := ⟨[], 0⟩

end ComponentIDRegistry

/-- Well-formedness of a registry reachable from `empty` by `register`
calls: bits are assigned in registration order starting at 0, names are
not repeated, and `nextBit` is the number of assignments. -/
def RegInv (r : ComponentIDRegistry) : Prop :=
  r.componentToBit.map Prod.snd = List.range r.componentToBit.length ∧
  r.nextBit = r.componentToBit.length ∧
  (r.componentToBit.map Prod.fst).Nodup

instance : DecidablePred RegInv := fun r => by
  unfold RegInv; infer_instance

/-! ### Archetype (`archetype.ts`) -/

/-- Columnar storage for the entities sharing one exact component
signature.  `signature` is the insertion-ordered component-name set,
`key` the bitmask formed from the members' registry bits, `entities` the
row-aligned entity-id array and `components` one value column per
signature member. -/
structure Archetype (α : Type) where
  signature : List String
  key : Nat
  entities : List Nat
  components : List (String × List α)
deriving DecidableEq

namespace Archetype

/-- The constructor: one empty column per signature member. -/
def create (α : Type) (signature : List String) (key : Nat) : Archetype α :=
  { signature := signature, key := key, entities := [],
    components := signature.map (fun n => (n, [])) }

/-- The column of one component name (names outside the signature give `[]`,
standing for the absent JS property). -/
def col {α : Type} (ar : Archetype α) (name : String) : List α :=
  (aget ar.components name).getD []

/-- `size`: the entity count. -/
def size {α : Type} (ar : Archetype α) : Nat := ar.entities.length

/-- The loop body of `addEntity`: walk the signature, pushing the given
value onto each column, and stop with an error at the first signature
member missing from the map.  Columns pushed before the failure keep
their new element, exactly as the mutating source does. -/
def pushColumns {α : Type} (entity : Nat) (cmap : List (String × α)) :
    List String → Archetype α → Except WErr Unit × Archetype α
  | [], ar => (.ok (), ar)
  | name :: rest, ar =>
      match aget cmap name with
      | none => (.error (.missingComponent entity name), ar)
      | some v =>
          pushColumns entity cmap rest
            { ar with components := aset ar.components name (ar.col name ++ [v]) }

/-- `addEntity(entity, components)`: append one row and return its index;
on a missing component the error is returned together with the archetype
state left behind by the partial column pushes. -/
def addEntity {α : Type} (ar : Archetype α) (entity : Nat) (cmap : List (String × α)) :
    Except WErr Nat × Archetype α :=
  match pushColumns entity cmap ar.signature ar with
  | (.error e, ar') => (.error e, ar')
  | (.ok _, ar') =>
      (.ok ar'.entities.length, { ar' with entities := ar'.entities ++ [entity] })

/-- `removeEntity(entity)`: locate the row by linear scan and remove it from
the entity array and every column with an order-preserving shift. -/
def removeEntity {α : Type} (ar : Archetype α) (entity : Nat) : Except WErr (Archetype α) :=
  match ar.entities.indexOf? entity with
  | none => .error (.entityNotInArchetype entity)
  | some index =>
      .ok { ar with
            entities := ar.entities.eraseIdx index,
            components :=
              ar.signature.foldl
                (fun cols name => aset cols name ((aget cols name).getD [] |>.eraseIdx index))
                ar.components }

/-- `getEntityAt(index)`: bounds-checked entity lookup. -/
def getEntityAt {α : Type} (ar : Archetype α) (index : Nat) : Except WErr Nat :=
  if index < ar.entities.length then .ok (ar.entities.getD index 0)
  else .error (.indexOutOfBounds index)

/-- `setComponentAt(name, index, data)`. -/
def setComponentAt {α : Type} (ar : Archetype α) (name : String) (index : Nat) (data : α) :
    Except WErr (Archetype α) :=
  if name ∉ ar.signature then .error (.componentNotInArchetype name)
  else if index < ar.entities.length then
    .ok { ar with components := aset ar.components name ((ar.col name).set index data) }
  else .error (.indexOutOfBounds index)

/-- `getComponentAt(name, index)` for inhabited `α`: the checks of the
source, then the column cell (an out-of-range cell on a ragged column is
the JS `undefined`, modelled by the default value). -/
def getComponentAt {α : Type} [Inhabited α] (ar : Archetype α) (name : String) (index : Nat) :
    Except WErr α :=
  if name ∉ ar.signature then .error (.componentNotInArchetype name)
  else if index < ar.entities.length then .ok ((ar.col name).getD index default)
  else .error (.indexOutOfBounds index)

/-- `getComponentsAt(index)`: the snapshot of every column at one row, in
signature order. -/
def getComponentsAt {α : Type} [Inhabited α] (ar : Archetype α) (index : Nat) :
    Except WErr (List (String × α)) :=
  if index < ar.entities.length then
    .ok (ar.signature.map (fun n => (n, (ar.col n).getD index default)))
  else .error (.indexOutOfBounds index)

/-- Static `getArchetypeKey`: OR together `1 <<< bit` for every member. -/
def getArchetypeKeyFrom (r : ComponentIDRegistry) (components : List String) (acc : Nat) :
    Except WErr Nat :=
  components.foldlM (fun mask name => do
    let bit ← r.getBit name
    pure (mask ||| (1 <<< bit))) acc

/-- Static `getArchetypeKey` with the source's zero start. -/
def getArchetypeKey (r : ComponentIDRegistry) (components : List String) : Except WErr Nat :=
  getArchetypeKeyFrom r components 0

/-- Static `hasComponents(source, query)`: the superset test. -/
def hasComponentsKey (source query : Nat) : Bool :=
  source &&& query = query

/-- Member `hasComponents(query)`. -/
def hasComponents {α : Type} (ar : Archetype α) (query : Nat) : Bool :=
  hasComponentsKey ar.key query

end Archetype

/-! ### World (`world.ts`) -/

/-- An entry of the entity location table: archetype key and row index. -/
structure EntityLocation where
  archetype : Nat
  index : Nat
deriving DecidableEq

/-- The world state the claims touch: the entity counter, the component
registry, the keyed archetype collection and the location table (`null`
locations are `none`).  Resources and the system table are independent
of the storage claims and live with the scheduler embedding. -/
structure World (α : Type) where
  nextEntity : Nat
  componentRegistry : ComponentIDRegistry
  archetypes : List (Nat × Archetype α)
  entityLocations : List (Nat × Option EntityLocation)
deriving DecidableEq

namespace World

/-- The fresh world. -/
def empty (α : Type) : World α :=
  { nextEntity := 0, componentRegistry := .empty, archetypes := [], entityLocations := [] }

/-- `registerComponents(...names)`. -/
def registerComponents {α : Type} (w : World α) (names : List String) : World α :=
  { w with componentRegistry :=
      names.foldl (fun r n => (r.register n).2) w.componentRegistry }

/-- `getOrCreateArchetype(components)`: fail on an empty set, compute the
key, insert a fresh archetype when the key is absent, and return the key
together with the updated world. -/
def getOrCreateArchetype {α : Type} (w : World α) (components : List String) :
    Except WErr (Nat × World α) :=
  if components.isEmpty then .error .emptyArchetype
  else
    match Archetype.getArchetypeKey w.componentRegistry components with
    | .error e => .error e
    | .ok key =>
        if ahas w.archetypes key then .ok (key, w)
        else .ok (key, { w with archetypes := w.archetypes ++ [(key, .create α components key)] })

/-- The shared tail of every migration: insert `entity` with `cmap` into
the archetype for `signature` and point the location entry at the
archetype's `key` field and the fresh row. -/
def insertInto {α : Type} (w : World α) (entity : Nat) (signature : List String)
    (cmap : List (String × α)) : Except WErr (World α) :=
  match w.getOrCreateArchetype signature with
  | .error e => .error e
  | .ok (key, w) =>
      match aget w.archetypes key with
      | none => .error .mapGetUndefined
      | some ar =>
          match ar.addEntity entity cmap with
          | (.error e, _) => .error e
          | (.ok index, ar') =>
              .ok { w with
                    archetypes := aset w.archetypes key ar',
                    entityLocations := aset w.entityLocations entity (some ⟨ar.key, index⟩) }

/-- `spawn(components?)`: allocate the next entity id; an absent or empty
component map gives the `null` location, otherwise the entity is
inserted into the archetype of the exact signature. -/
def spawn {α : Type} (w : World α) (components : Option (List (String × α))) :
    Except WErr (Nat × World α) :=
  let entity := w.nextEntity
  let w : World α := { w with nextEntity := w.nextEntity + 1 }
  match components with
  | none =>
      .ok (entity, { w with entityLocations := aset w.entityLocations entity none })
  | some cmap =>
      if cmap.isEmpty then
        .ok (entity, { w with entityLocations := aset w.entityLocations entity none })
      else
        match w.insertInto entity (jsSetOf (cmap.map Prod.fst)) cmap with
        | .error e => .error e
        | .ok w => .ok (entity, w)

/-- `addComponent(entity, name, data)`: overwrite in place when the
entity's archetype already contains `name`; otherwise migrate the row to
the archetype of the union signature.  The emptied source archetype is
not pruned here. -/
def addComponent {α : Type} [Inhabited α] (w : World α) (entity : Nat) (name : String)
    (data : α) : Except WErr (World α) :=
  if ¬ ahas w.entityLocations entity then .error (.entityNotFound entity)
  else
    match (aget w.entityLocations entity).getD none with
    | some location =>
        (match aget w.archetypes location.archetype with
         | none => .error .mapGetUndefined
         | some ar =>
            if name ∈ ar.signature then
              match ar.setComponentAt name location.index data with
              | .error e => .error e
              | .ok ar' =>
                  .ok { w with archetypes := aset w.archetypes location.archetype ar' }
            else
              match ar.getComponentsAt location.index with
              | .error e => .error e
              | .ok row =>
                  match ar.removeEntity entity with
                  | .error e => .error e
                  | .ok ar2 =>
                      World.insertInto
                        { w with archetypes := aset w.archetypes location.archetype ar2 }
                        entity (jsSetOf (name :: ar.signature)) ((name, data) :: row))
    | none =>
        w.insertInto entity (jsSetOf [name]) [(name, data)]

/-- `removeComponent(entity, name)`: a no-op for an entity with no
components or whose archetype lacks `name`; otherwise migrate the
remaining data, pruning the source archetype when it empties, and fall
back to the `null` location on an emptied signature. -/
def removeComponent {α : Type} [Inhabited α] (w : World α) (entity : Nat) (name : String) :
    Except WErr (World α) :=
  if ¬ ahas w.entityLocations entity then .error (.entityNotFound entity)
  else
    match (aget w.entityLocations entity).getD none with
    | none => .ok w
    | some location =>
        match aget w.archetypes location.archetype with
        | none => .error .mapGetUndefined
        | some ar =>
            if name ∉ ar.signature then .ok w
            else
              match ar.getComponentsAt location.index with
              | .error e => .error e
              | .ok row =>
                  match ar.removeEntity entity with
                  | .error e => .error e
                  | .ok ar2 =>
                      let w : World α :=
                        { w with archetypes := aset w.archetypes location.archetype ar2 }
                      let w : World α :=
                        if ar2.size = 0 then
                          { w with archetypes := adel w.archetypes location.archetype }
                        else w
                      let newSignature := (ar.signature : List String).erase name
                      if newSignature.isEmpty then
                        .ok { w with
                              entityLocations := aset w.entityLocations entity none }
                      else
                        w.insertInto entity newSignature (adel row name)

/-- `setComponents(entity, components)`: remove the entity from its old
archetype (without pruning) and insert it fresh into the archetype of
the exact new signature. -/
def setComponents {α : Type} (w : World α) (entity : Nat) (cmap : List (String × α)) :
    Except WErr (World α) :=
  if ¬ ahas w.entityLocations entity then .error (.entityNotFound entity)
  else
    match (aget w.entityLocations entity).getD none with
    | none => w.insertInto entity (jsSetOf (cmap.map Prod.fst)) cmap
    | some location =>
        match aget w.archetypes location.archetype with
        | none => .error .mapGetUndefined
        | some ar =>
            match ar.removeEntity entity with
            | .error e => .error e
            | .ok ar2 =>
                World.insertInto
                  { w with archetypes := aset w.archetypes location.archetype ar2 }
                  entity (jsSetOf (cmap.map Prod.fst)) cmap

/-- `removeEntity(entity)`: remove the row from the entity's archetype,
prune it when it empties, and delete the location entry outright. -/
def removeEntity {α : Type} (w : World α) (entity : Nat) : Except WErr (World α) :=
  if ¬ ahas w.entityLocations entity then .error (.entityNotFound entity)
  else
    match (aget w.entityLocations entity).getD none with
    | none => .ok { w with entityLocations := adel w.entityLocations entity }
    | some location =>
        match aget w.archetypes location.archetype with
        | none => .error .mapGetUndefined
        | some ar =>
            match ar.removeEntity entity with
            | .error e => .error e
            | .ok ar2 =>
                let w : World α :=
                  { w with archetypes := aset w.archetypes location.archetype ar2 }
                let w : World α :=
                  if ar2.size = 0 then
                    { w with archetypes := adel w.archetypes location.archetype }
                  else w
                .ok { w with entityLocations := adel w.entityLocations entity }

end World

/-! ### Query engine (`query.ts`) -/

/-- The access mode of a declared query component: `false` (presence
filter only), `'read'` or `'write'` in the source. -/
inductive AccessMode where
  | omit
  | read
  | write
deriving DecidableEq

/-- The iterator of `Query`: compute the filter key from every declared
name, then walk the archetype collection in insertion order, and for
every archetype passing the superset test yield one tuple per row — the
entity followed by the values of the non-`omit` components in
declaration order.  `read`-mode values are frozen deep clones in the
source; on the immutable model values the clone is the identity, so both
modes yield the stored value. -/
def queryRun {α : Type} [Inhabited α] (reg : ComponentIDRegistry)
    (archetypes : List (Nat × Archetype α)) (accesses : List (String × AccessMode)) :
    Except WErr (List (Nat × List α)) := do
  let targets := accesses.map Prod.fst
  let queryKey ← Archetype.getArchetypeKey reg (jsSetOf targets)
  let accessors := targets.filter (fun n => aget accesses n ≠ some .omit)
  (archetypes.map Prod.snd).foldlM (fun rows ar =>
    if ar.hasComponents queryKey then do
      let newRows ← (List.range ar.size).mapM (fun i => do
        let entity ← ar.getEntityAt i
        let vals ← accessors.mapM (fun a => ar.getComponentAt a i)
        pure (entity, vals))
      pure (rows ++ newRows)
    else pure rows) []

/-! ### Systems and the scheduler (`system.ts`, `world.ts`) -/

/-- A `before`/`after` constraint entry: a system name, or a system
instance.  An instance reference carries the referenced object's
identity and name; the sort consults nothing else of a referenced
object that is not registered in the phase. -/
inductive SRef where
  | byName (name : String)
  | inst (id : Nat) (name : Option String)
deriving DecidableEq

/-- A system descriptor after initialization: identity, optional name,
memoized read/write footprint, the `sync` flag and the explicit ordering
constraint sets.  `id` stands for the JS object identity. -/
structure Sys where
  id : Nat
  name : Option String
  reads : List String
  writes : List String
  sync : Bool
  after : List SRef
  before : List SRef
deriving DecidableEq

/-- `systemsConflict(a, b)`: either is `sync`-flagged, or `a`'s reads meet
`b`'s writes, or `a`'s writes meet `b`'s reads or writes. -/
def systemsConflict (a b : Sys) : Bool :=
  a.sync || b.sync ||
  a.reads.any (fun r => b.writes.contains r) ||
  a.writes.any (fun w => b.reads.contains w || b.writes.contains w)

/-- `conflictsWithBatch(system, batch)`. -/
def conflictsWithBatch (s : Sys) (batch : List Sys) : Bool :=
  batch.any (fun other => systemsConflict s other)

/-- `batchSystems(systems)`: greedily grow the last open batch, opening a
new one whenever the next system conflicts with a member. -/
def batchSystems (systems : List Sys) : List (List Sys) :=
  systems.foldl (fun batches s =>
    match batches.getLast? with
    | some lastBatch =>
        if conflictsWithBatch s lastBatch then batches ++ [[s]]
        else batches.dropLast ++ [lastBatch ++ [s]]
    | none => batches ++ [[s]]) []

/-- The failures of `topologicalSort`. -/
inductive SortErr where
  /-- `Circular dependency detected: ${system._name}` — carries the system
  whose name the message prints. -/
  | circular (s : Sys)
  /-- Exhaustion of the recursion-depth fuel of the model; shown below to
  be unreachable for the fuel the sort supplies. -/
  | fuelOut
  /-- The JS `TypeError` from `graph.get(depSystem)!.add(...)` when a
  `before` constraint resolves to a system that is not a graph key. -/
  | typeError
deriving DecidableEq

/-- The dependency graph: each registered system maps to the
insertion-ordered set of systems it must come after. -/
abbrev Graph : Type := List (Sys × List Sys)

/-- `graph.get(s) ?? []`. -/
def graphGet (g : Graph) (s : Sys) : List Sys :=
  (aget g s).getD []

/-- `graph.get(key)!.add(dep)` where the key is known present: append the
dependency to the key's set unless already there. -/
def graphAdd (g : Graph) (key dep : Sys) : Graph :=
  match aget g key with
  | none => g
  | some deps => if dep ∈ deps then g else aset g key (deps ++ [dep])

/-- `new Map(systems.map(s => [s, new Set()]))`. -/
def initGraph (systems : List Sys) : Graph :=
  systems.foldl (fun g s => if ahas g s then g else g ++ [(s, [])]) []

/-- The resolved target of a constraint entry: a name resolves through
`nameToSystem` (a JS `Map` built from name/system pairs, so the last
system with the name wins, and a missing name gives nothing); an
instance reference is the referenced object itself. -/
def resolveRef (systems : List Sys) : SRef → Option Sys
  | .byName n => systems.reverse.find? (fun s => s.name == some n)
  | .inst i nm =>
      some (match systems.find? (fun s => s.id == i) with
            | some s => s
            | none => { id := i, name := nm, reads := [], writes := [],
                        sync := false, after := [], before := [] })

/-- One step of the `after` loop: a resolved target joins the system's
dependency set; an unresolved name contributes nothing. -/
def afterStep (systems : List Sys) (s : Sys) (g : Graph) (r : SRef) : Graph :=
  match resolveRef systems r with
  | some d => graphAdd g s d
  | none => g

/-- The `after` loop of the graph construction: every resolved target
joins the system's dependency set; unresolved names contribute nothing. -/
def addAfterEdges (systems : List Sys) (g : Graph) (s : Sys) : Graph :=
  s.after.foldl (afterStep systems s) g

/-- One step of the `before` loop: the system joins a resolved target's
dependency set; a resolved target that is not a graph key is the
source's `graph.get(depSystem)!.add(...)` crash. -/
def beforeStep (systems : List Sys) (s : Sys) (g : Graph) (r : SRef) :
    Except SortErr Graph :=
  match resolveRef systems r with
  | some d => if ahas g d then pure (graphAdd g d s) else throw .typeError
  | none => pure g

/-- The `before` loop: the system joins each resolved target's dependency
set, crashing on a resolved target that is not a graph key. -/
def addBeforeEdges (systems : List Sys) (g : Graph) (s : Sys) : Except SortErr Graph :=
  s.before.foldlM (beforeStep systems s) g

/-- One iteration of the graph-construction loop: the system's `after`
entries and then its `before` entries are turned into edges. -/
def sysStep (systems : List Sys) (g : Graph) (s : Sys) : Except SortErr Graph :=
  addBeforeEdges systems (addAfterEdges systems g s) s

/-- The whole graph-construction loop of `topologicalSort`. -/
def buildGraph (systems : List Sys) : Except SortErr Graph :=
  systems.foldlM (sysStep systems) (initGraph systems)

/-- The mutable state of the DFS: the recursion path `temp`, the
`visited` set and the output `result`. -/
structure DfsSt where
  temp : List Sys
  visited : List Sys
  result : List Sys
deriving DecidableEq

/-- Sequential visiting of a list of systems by an arbitrary
single-system visitor, short-circuiting on the first error. -/
def visitListF (f : Sys → DfsSt → Except SortErr DfsSt) :
    List Sys → DfsSt → Except SortErr DfsSt
  | [], st => .ok st
  | d :: rest, st =>
      match f d st with
      | .error e => .error e
      | .ok st' => visitListF f rest st'

/-- The `visit` closure of `topologicalSort`: return early on a visited
system, raise the circular-dependency error on a system already on the
path, and otherwise visit every dependency before emitting the system.
`fuel` bounds the recursion depth of the model; the bound supplied by
the sort is shown below never to run out. -/
def visit (g : Graph) : Nat → Sys → DfsSt → Except SortErr DfsSt
  | 0, s, st =>
      if s ∈ st.visited then .ok st
      else if s ∈ st.temp then .error (.circular s)
      else .error .fuelOut
  | fuel + 1, s, st =>
      if s ∈ st.visited then .ok st
      else if s ∈ st.temp then .error (.circular s)
      else
        match visitListF (visit g fuel) (graphGet g s) { st with temp := s :: st.temp } with
        | .error e => .error e
        | .ok st' =>
            .ok { temp := st'.temp.erase s,
                  visited := st'.visited ++ [s],
                  result := st'.result ++ [s] }

/-- Sequential visiting of a dependency list (and of the top-level system
list) at a given recursion-depth bound. -/
def visitMany (g : Graph) (fuel : Nat) (ds : List Sys) (st : DfsSt) : Except SortErr DfsSt :=
  visitListF (visit g fuel) ds st

/-- Every system the DFS can ever be asked to visit: the registered list
together with every member of a dependency set. -/
def nodeUniverse (g : Graph) (systems : List Sys) : List Sys :=
  (systems ++ g.flatMap Prod.snd).dedup

/-- A recursion-depth bound exceeding the number of distinct visitable
systems. -/
def fuelBound (g : Graph) (systems : List Sys) : Nat :=
  (nodeUniverse g systems).length + 1

/-- The DFS phase of `topologicalSort`: visit every registered system in
registration order and return the emission order. -/
def runDfs (g : Graph) (systems : List Sys) : Except SortErr (List Sys) :=
  match visitMany g (fuelBound g systems) systems ⟨[], [], []⟩ with
  | .error e => .error e
  | .ok st => .ok st.result

/-- `topologicalSort(systems)` — the per-phase sort `initializeSystems`
applies after dependency analysis. -/
def topologicalSort (systems : List Sys) : Except SortErr (List Sys) := do
  let g ← buildGraph systems
  runDfs g systems

/-- The dependency relation of the resolved graph: `edgeRel g a b` holds
when `a` must run after `b` (i.e. `b` is in `a`'s dependency set). -/
def edgeRel (g : Graph) (a b : Sys) : Prop := b ∈ graphGet g a

/-- A system untouched by the constraint graph: it has no dependency set
entries and is no registered system's dependency. -/
def IsolatedNode (g : Graph) (systems : List Sys) (s : Sys) : Prop :=
  graphGet g s = [] ∧ ∀ x ∈ systems, s ∉ graphGet g x

instance (g : Graph) (systems : List Sys) : DecidablePred (IsolatedNode g systems) :=
  fun s => by unfold IsolatedNode; infer_instance

/-- The invariant of the DFS state: the visited set and the emission
order hold the same systems, without duplicates, and every emitted
system's dependencies are emitted strictly earlier. -/
def GoodSt (g : Graph) (st : DfsSt) : Prop :=
  st.visited = st.result ∧ st.result.Nodup ∧
  ∀ x ∈ st.result, ∀ d ∈ graphGet g x,
    d ∈ st.result ∧ st.result.indexOf d < st.result.indexOf x

/-! ### Well-formedness and specification-side descriptions -/

/-- Well-formedness of one archetype-collection entry: the archetype's
`key` field is the key it is stored under, that key is the bitmask the
registry computes for its signature, and the signature (a JS `Set` in
the source) has no duplicates. -/
def ArchWF {α : Type} (r : ComponentIDRegistry) (entry : Nat × Archetype α) : Prop :=
  entry.2.key = entry.1 ∧
  Archetype.getArchetypeKey r entry.2.signature = .ok entry.1 ∧
  entry.2.signature.Nodup

instance {α : Type} [DecidableEq α] (r : ComponentIDRegistry) :
    DecidablePred (ArchWF (α := α) r) := fun entry => by
  unfold ArchWF; infer_instance

/-- Well-formedness of a world: a well-formed registry and well-formed
archetype entries. -/
def WorldWF {α : Type} (w : World α) : Prop :=
  RegInv w.componentRegistry ∧ ∀ entry ∈ w.archetypes, ArchWF w.componentRegistry entry

instance {α : Type} [DecidableEq α] : DecidablePred (WorldWF (α := α)) := fun w => by
  unfold WorldWF; infer_instance


/-- The rows the spec's description of query execution produces: for
every archetype whose key is a superset of the filter mask, in
collection order, every row in order, as the entity followed by the
values of the accessor components in declaration order. -/
def queryRowsSpec {α : Type} [Inhabited α] (archetypes : List (Nat × Archetype α))
    (accessors : List String) (mask : Nat) : List (Nat × List α) :=
  ((archetypes.map Prod.snd).filter (fun ar => ar.hasComponents mask)).flatMap
    (fun ar => (List.range ar.size).map
      (fun i => (ar.entities.getD i 0, accessors.map (fun a => (ar.col a).getD i default))))

/-- An entity currently matches a query filter mask when its location
names an archetype of the collection whose key passes the superset
test. -/
def entityMatches {α : Type} (w : World α) (e : Nat) (mask : Nat) : Prop :=
  ∃ loc ar, aget w.entityLocations e = some (some loc) ∧
    aget w.archetypes loc.archetype = some ar ∧ ar.hasComponents mask = true

/-- No archetype of the collection is empty. -/
def NoEmptyArchetype {α : Type} (w : World α) : Prop :=
  ∀ entry ∈ w.archetypes, (entry.2 : Archetype α).size ≠ 0

instance {α : Type} : DecidablePred (NoEmptyArchetype (α := α)) := fun w => by
  unfold NoEmptyArchetype; infer_instance

/-! ### Concrete fixtures used by individual claims -/

/-- C1 fixture: two entities spawned into the same single-component
archetype, then the first is removed. -/
def c1Trace : Except WErr (World Nat) := do
  let w := (World.empty Nat).registerComponents ["a"]
  let (_, w) ← w.spawn (some [("a", 7)])
  let (_, w) ← w.spawn (some [("a", 8)])
  w.removeEntity 0

/-- C2 fixture: a spawned `{a}` entity gains component `b`, emptying the
`{a}` archetype. -/
def c2Trace : Except WErr (World Nat) := do
  let w := (World.empty Nat).registerComponents ["a", "b"]
  let (_, w) ← w.spawn (some [("a", 7)])
  w.addComponent 0 "b" 9

/-- C4 fixture: an empty two-component archetype. -/
def c4Arch : Archetype Nat := Archetype.create Nat ["a", "b"] 3

/-- C5 fixture: `A` is declared `after` `C`; `B` and `C` declare nothing
and are referenced by nothing that involves the other. -/
def c5A : Sys := ⟨0, some "A", [], [], false, [.byName "C"], []⟩

/-- C5 fixture: the unconstrained middle system. -/
def c5B : Sys := ⟨1, some "B", [], [], false, [], []⟩

/-- C5 fixture: the dependency target registered last. -/
def c5C : Sys := ⟨2, some "C", [], [], false, [], []⟩

/-- C10 fixture: a system whose `after` set holds a system instance that
is not registered in the phase. -/
def c10D : Sys := ⟨0, some "D", [], [], false, [.inst 99 (some "F")], []⟩

/-- C10 fixture: the foreign instance the reference designates. -/
def c10F : Sys := ⟨99, some "F", [], [], false, [], []⟩

/-- C10 fixture: a system whose `before` set holds an unregistered
instance. -/
def c10E : Sys := ⟨0, some "E", [], [], false, [], [.inst 99 (some "F")]⟩

/-- C5 fixture: the dependency graph built from `[c5A, c5B, c5C]`. -/
def c5G : Graph := [(c5A, [c5C]), (c5B, []), (c5C, [])]

/-- C10 fixture: the dependency graph built from `[c10D]` alone — the
foreign instance `c10F` appears as a dependency entry. -/
def c10G : Graph := [(c10D, [c10F])]

/-- C7 fixture: a world with components `a ↦ 0`, `b ↦ 1` and entity 0
living in the `{a}` archetype at row 0. -/
def c7W : World Nat :=
  ⟨2, ⟨[("a", 0), ("b", 1)], 2⟩, [(1, ⟨["a"], 1, [0], [("a", [7])]⟩)],
   [(0, some ⟨1, 0⟩)]⟩

/-- C7 fixture: `c7W` after `addComponent(0, "b", 9)`. -/
def c7Wadd : World Nat :=
  ⟨2, ⟨[("a", 0), ("b", 1)], 2⟩,
   [(1, ⟨["a"], 1, [], [("a", [])]⟩),
    (3, ⟨["b", "a"], 3, [0], [("b", [9]), ("a", [7])]⟩)],
   [(0, some ⟨3, 0⟩)]⟩

/-- C7 fixture: `c7W` after `removeComponent(0, "a")`. -/
def c7Wrem : World Nat :=
  ⟨2, ⟨[("a", 0), ("b", 1)], 2⟩, [], [(0, none)]⟩

/-!
## Theorems
-/

/-- Claim C1 (code bug): removing an entity leaves the location entries of
the other entities of the same archetype untouched, so they go stale.
After spawning entities 0 and 1 into the `{a}` archetype and removing
entity 0, entity 1's location still records row 1 of archetype key 1,
but that archetype now stores entity 1 at row 0 and holds only one row,
so no archetype contains entity 1 at the recorded index. -/
theorem c1_stale_location_after_removal :
    c1Trace.map
        (fun w => (aget w.entityLocations 1,
                   (aget w.archetypes 1).map (fun ar => ar.entities))) =
      .ok (some (some ⟨1, 1⟩), some [1]) := by
  rfl

/-- Claim C2 (counterexample): `addComponent` migrates the only `{a}`
entity away and leaves the emptied `{a}` archetype (key 1) in the
collection, so an archetype with zero entities persists after a World
operation. -/
theorem c2_empty_archetype_persists :
    c2Trace.map
        (fun w => (aget w.archetypes 1).map (fun ar => (ar.signature, ar.entities))) =
      .ok (some (["a"], [])) := by
  rfl

/-- Claim C4 (code bug): `addEntity` pushes each column while checking the
component map, so a failed insert leaves ragged columns: on a `{a, b}`
archetype, inserting an entity that only supplies `a` fails, yet leaves
column `a` with one element while column `b` and the entity array keep
zero. -/
theorem c4_ragged_columns_after_failed_add :
    (c4Arch.addEntity 0 [("a", 5)]).1 = .error (.missingComponent 0 "b") ∧
    ((c4Arch.addEntity 0 [("a", 5)]).2.col "a").length = 1 ∧
    ((c4Arch.addEntity 0 [("a", 5)]).2.col "b").length = 0 ∧
    (c4Arch.addEntity 0 [("a", 5)]).2.entities.length = 0 := by
  refine ⟨rfl, rfl, rfl, rfl⟩

/-- Claim C9: spawning with an empty component map takes the same branch
as spawning with no argument: the fresh entity id `nextEntity` is
returned, the counter is incremented, the location entry is set to the
`null` sentinel, and the archetype collection (and the rest of the
world) is untouched. -/
theorem c9_spawn_empty_equals_spawn_none {α : Type} (w : World α) :
    w.spawn (some []) = w.spawn none ∧
    w.spawn none =
      .ok (w.nextEntity,
        { w with nextEntity := w.nextEntity + 1,
                 entityLocations := aset w.entityLocations w.nextEntity none }) :=
  ⟨rfl, rfl⟩

/-- Claim C5 (counterexample): with registration order `[A, B, C]` and the
single constraint `A after C`, the sort emits `[C, A, B]`.  `B` and `C`
declare no constraints relating them (`B` declares none at all and `C`
declares none at all), yet their registration order `B` before `C` is
not preserved — the sort is not stable for unconstrained pairs. -/
theorem c5_stability_counterexample :
    topologicalSort [c5A, c5B, c5C] = .ok [c5C, c5A, c5B] ∧
    c5B.after = [] ∧ c5B.before = [] ∧ c5C.after = [] ∧ c5C.before = [] := by
  refine ⟨rfl, rfl, rfl, rfl, rfl⟩

/-- Claim C10 (counterexample): an `after` constraint referencing a system
instance that is not registered in the phase is not silently dropped:
the sort emits the foreign instance into the output ahead of the
referencing system, instead of proceeding as if the constraint were
absent (which would yield `[D]`); and a `before` constraint referencing
an unregistered instance crashes the sort instead of being ignored. -/
theorem c10_foreign_instance_counterexample :
    topologicalSort [c10D] = .ok [c10F, c10D] ∧
    topologicalSort [c10E] = .error .typeError := by
  refine ⟨rfl, rfl⟩

/-! ### Association-list lemmas -/

theorem aget_mem {κ ν : Type} [DecidableEq κ] {l : List (κ × ν)} {k : κ} {v : ν}
    (h : aget l k = some v) : (k, v) ∈ l := by
  induction l with
  | nil => simp [aget] at h
  | cons p rest ih =>
      obtain ⟨k', v'⟩ := p
      by_cases hk : k' = k
      · subst hk
        simp [aget] at h
        simp [h]
      · simp [aget, hk] at h
        exact List.mem_cons_of_mem _ (ih h)

theorem aget_eq_none_iff {κ ν : Type} [DecidableEq κ] {l : List (κ × ν)} {k : κ} :
    aget l k = none ↔ k ∉ l.map Prod.fst := by
  induction l with
  | nil => simp [aget]
  | cons p rest ih =>
      obtain ⟨k', v'⟩ := p
      by_cases hk : k' = k
      · subst hk; simp [aget]
      · simp [aget, hk, ih, Ne.symm hk]

theorem aget_append_left {κ ν : Type} [DecidableEq κ] {l₁ : List (κ × ν)} (l₂ : List (κ × ν))
    {k : κ} {v : ν} (h : aget l₁ k = some v) : aget (l₁ ++ l₂) k = some v := by
  induction l₁ with
  | nil => simp [aget] at h
  | cons p rest ih =>
      obtain ⟨k', v'⟩ := p
      by_cases hk : k' = k
      · subst hk; simp [aget] at h ⊢; exact h
      · simp [aget, hk] at h ⊢; exact ih h

/-! ### Claim C8: the component registry -/

/-- Registered bits never reach `nextBit` under `RegInv`. -/
theorem regInv_bit_lt {r : ComponentIDRegistry} (hr : RegInv r) {n : String} {b : Nat}
    (h : aget r.componentToBit n = some b) : b < r.nextBit := by
  obtain ⟨hsnd, hnext, -⟩ := hr
  have hmem : (n, b) ∈ r.componentToBit := aget_mem h
  have : b ∈ r.componentToBit.map Prod.snd := List.mem_map_of_mem Prod.snd hmem
  rw [hsnd] at this
  rw [hnext]
  exact List.mem_range.mp this

/-- Under `RegInv`, distinct registered names hold distinct bits. -/
theorem regInv_injective {r : ComponentIDRegistry} (hr : RegInv r)
    {n₁ n₂ : String} {b : Nat}
    (h₁ : aget r.componentToBit n₁ = some b) (h₂ : aget r.componentToBit n₂ = some b) :
    n₁ = n₂ := by
  obtain ⟨hsnd, -, -⟩ := hr
  have hnodup : (r.componentToBit.map Prod.snd).Nodup := by
    rw [hsnd]; exact List.nodup_range _
  have hm₁ : (n₁, b) ∈ r.componentToBit := aget_mem h₁
  have hm₂ : (n₂, b) ∈ r.componentToBit := aget_mem h₂
  -- with duplicate-free bits, the entries with bit `b` coincide
  have := List.inj_on_of_nodup_map hnodup hm₁ hm₂ rfl
  exact congrArg Prod.fst this

/-- Claim C8: `register(name)` is idempotent — a previously registered
name gets its existing bit back with the registry unchanged; a fresh
name gets the current next free bit, appended to the table with the
counter incremented, preserving well-formedness.  Distinct names hold
distinct bits, each strictly below the next free bit (so later
assignments are strictly larger), registration never changes an existing
assignment, and `getBit(name)` fails with `UnregisteredComponent`
exactly when the name was never registered. -/
theorem c8_registry (r : ComponentIDRegistry) (name : String) (hr : RegInv r) :
    (∀ b0, aget r.componentToBit name = some b0 → r.register name = (b0, r)) ∧
    (aget r.componentToBit name = none →
        r.register name =
          (r.nextBit, ⟨r.componentToBit ++ [(name, r.nextBit)], r.nextBit + 1⟩) ∧
        RegInv (r.register name).2) ∧
    (∀ n₁ n₂ b₁ b₂, aget r.componentToBit n₁ = some b₁ →
        aget r.componentToBit n₂ = some b₂ → n₁ ≠ n₂ → b₁ ≠ b₂) ∧
    (∀ n b0, aget r.componentToBit n = some b0 → b0 < r.nextBit) ∧
    (∀ n b0, aget r.componentToBit n = some b0 →
        aget (r.register name).2.componentToBit n = some b0) ∧
    (r.getBit name = .error (.unregisteredComponent name) ↔
        aget r.componentToBit name = none) := by
  refine ⟨?_, ?_, ?_, ?_, ?_, ?_⟩
  · intro b0 h
    simp [ComponentIDRegistry.register, h]
  · intro h
    refine ⟨by simp [ComponentIDRegistry.register, h], ?_⟩
    obtain ⟨hsnd, hnext, hfst⟩ := hr
    simp only [ComponentIDRegistry.register, h]
    refine ⟨?_, ?_, ?_⟩
    · simp [hsnd, hnext, List.range_succ]
    · simp [hnext]
    · simp only [List.map_append, List.map_cons, List.map_nil]
      rw [List.nodup_append]
      refine ⟨hfst, List.nodup_singleton _, ?_⟩
      intro a ha hb
      simp at hb
      subst hb
      exact (aget_eq_none_iff.mp h) ha
  · intro n₁ n₂ b₁ b₂ h₁ h₂ hne heq
    exact hne (regInv_injective hr h₁ (heq ▸ h₂))
  · intro n b0 h
    exact regInv_bit_lt hr h
  · intro n b0 h
    unfold ComponentIDRegistry.register
    match hcase : aget r.componentToBit name with
    | some b => simpa using h
    | none => simpa using aget_append_left _ h
  · constructor
    · intro h
      match hcase : aget r.componentToBit name with
      | some b => simp [ComponentIDRegistry.getBit, hcase] at h
      | none => rfl
    · intro h
      simp [ComponentIDRegistry.getBit, h]

/-- Witness for C8 at a concrete registry containing `a ↦ 0` with next
free bit 1. -/
theorem c8_registry_witness :
    RegInv ⟨[("a", 0)], 1⟩ ∧
    (ComponentIDRegistry.register ⟨[("a", 0)], 1⟩ "a" = (0, ⟨[("a", 0)], 1⟩)) ∧
    (ComponentIDRegistry.getBit ⟨[("a", 0)], 1⟩ "b" =
      .error (.unregisteredComponent "b")) := by
  refine ⟨by decide, ?_, ?_⟩
  · exact (c8_registry ⟨[("a", 0)], 1⟩ "a" (by decide)).1 0 rfl
  · exact (c8_registry ⟨[("a", 0)], 1⟩ "b" (by decide)).2.2.2.2.2.mpr rfl

/-! ### Claim C3: batching safety -/

/-- The conflict test of the scheduler is symmetric. -/
theorem systemsConflict_comm (a b : Sys) : systemsConflict a b = systemsConflict b a := by
  have key : ∀ u v : Sys, systemsConflict u v = true → systemsConflict v u = true := by
    intro u v h
    simp only [systemsConflict, Bool.or_eq_true, List.any_eq_true, List.elem_iff] at h ⊢
    rcases h with ((h | h) | ⟨x, hx, hw⟩) | ⟨x, hx, hr | hw⟩
    · exact Or.inl (Or.inl (Or.inr h))
    · exact Or.inl (Or.inl (Or.inl h))
    · exact Or.inr ⟨x, hw, Or.inl hx⟩
    · exact Or.inl (Or.inr ⟨x, hr, hx⟩)
    · exact Or.inr ⟨x, hw, Or.inr hx⟩
  rw [Bool.eq_iff_iff]
  exact ⟨key a b, key b a⟩

/-- Every batch produced by the greedy fold is pairwise conflict-free. -/
theorem batchSystems_pairwise (systems : List Sys) :
    ∀ batch ∈ batchSystems systems,
      batch.Pairwise (fun a b => systemsConflict a b = false) := by
  suffices h : ∀ (l : List Sys) (acc : List (List Sys)),
      (∀ b ∈ acc, b.Pairwise (fun a b => systemsConflict a b = false)) →
      ∀ batch ∈ l.foldl (fun batches s =>
        match batches.getLast? with
        | some lastBatch =>
            if conflictsWithBatch s lastBatch then batches ++ [[s]]
            else batches.dropLast ++ [lastBatch ++ [s]]
        | none => batches ++ [[s]]) acc,
        batch.Pairwise (fun a b => systemsConflict a b = false) by
    intro batch hb
    exact h systems [] (by simp) batch hb
  intro l
  induction l with
  | nil => intro acc hacc batch hb; exact hacc batch hb
  | cons s rest ih =>
      intro acc hacc batch hb
      refine ih _ ?_ batch hb
      intro b hbmem
      match hlast : acc.getLast? with
      | none =>
          simp only [hlast] at hbmem
          rcases List.mem_append.mp hbmem with h | h
          · exact hacc b h
          · simp at h; subst h; simp
      | some lastBatch =>
          have hlmem : lastBatch ∈ acc := List.mem_of_mem_getLast? hlast
          simp only [hlast] at hbmem
          by_cases hc : conflictsWithBatch s lastBatch
          · simp only [hc, if_true] at hbmem
            rcases List.mem_append.mp hbmem with h | h
            · exact hacc b h
            · simp at h; subst h; simp
          · simp only [hc, if_false] at hbmem
            rcases List.mem_append.mp hbmem with h | h
            · exact hacc b (List.dropLast_subset _ h)
            · simp at h; subst h
              rw [List.pairwise_append]
              refine ⟨hacc _ hlmem, by simp, ?_⟩
              intro a ha c hcmem
              simp at hcmem
              rw [hcmem, systemsConflict_comm]
              have hcf : conflictsWithBatch s lastBatch = false := Bool.of_not_eq_true hc
              exact Bool.of_not_eq_true (List.any_eq_false.mp hcf a ha)

/-- Claim C3: any two systems at distinct positions of one batch produced
by the scheduler have mutually disjoint write/read and write/write
footprints, and neither carries the `sync` flag. -/
theorem c3_batch_safety (systems : List Sys) :
    ∀ batch ∈ batchSystems systems,
    ∀ i j (hi : i < batch.length) (hj : j < batch.length), i ≠ j →
      (batch.get ⟨i, hi⟩).sync = false ∧ (batch.get ⟨j, hj⟩).sync = false ∧
      (∀ x ∈ (batch.get ⟨i, hi⟩).writes,
          x ∉ (batch.get ⟨j, hj⟩).reads ∧ x ∉ (batch.get ⟨j, hj⟩).writes) ∧
      (∀ x ∈ (batch.get ⟨j, hj⟩).writes,
          x ∉ (batch.get ⟨i, hi⟩).reads ∧ x ∉ (batch.get ⟨i, hi⟩).writes) := by
  intro batch hb i j hi hj hij
  have hpw := batchSystems_pairwise systems batch hb
  have key : ∀ a b : Sys, systemsConflict a b = false →
      a.sync = false ∧ b.sync = false ∧
      (∀ x ∈ a.writes, x ∉ b.reads ∧ x ∉ b.writes) ∧
      (∀ x ∈ b.writes, x ∉ a.reads ∧ x ∉ a.writes) := by
    intro a b hab
    have hba : systemsConflict b a = false := by rw [systemsConflict_comm]; exact hab
    have side : ∀ u v : Sys, systemsConflict u v = false →
        u.sync = false ∧ (∀ x ∈ u.writes, x ∉ v.reads ∧ x ∉ v.writes) := by
      intro u v huv
      constructor
      · revert huv
        unfold systemsConflict
        cases u.sync <;> simp
      · intro x hx
        constructor
        · intro hm
          have hw : systemsConflict u v = true := by
            unfold systemsConflict
            have h1 : u.writes.any (fun w => v.reads.contains w || v.writes.contains w)
                = true := by
              rw [List.any_eq_true]
              exact ⟨x, hx, by rw [Bool.or_eq_true]; exact Or.inl (List.elem_iff.mpr hm)⟩
            rw [h1, Bool.or_true]
          rw [huv] at hw
          cases hw
        · intro hm
          have hw : systemsConflict u v = true := by
            unfold systemsConflict
            have h1 : u.writes.any (fun w => v.reads.contains w || v.writes.contains w)
                = true := by
              rw [List.any_eq_true]
              exact ⟨x, hx, by rw [Bool.or_eq_true]; exact Or.inr (List.elem_iff.mpr hm)⟩
            rw [h1, Bool.or_true]
          rw [huv] at hw
          cases hw
    exact ⟨(side a b hab).1, (side b a hba).1, (side a b hab).2, (side b a hba).2⟩
  have hget := List.pairwise_iff_get.mp hpw
  rcases Nat.lt_or_ge i j with hlt | hge
  · exact key _ _ (hget ⟨i, hi⟩ ⟨j, hj⟩ hlt)
  · have hlt : j < i := lt_of_le_of_ne hge (by omega)
    have h := key _ _ (hget ⟨j, hj⟩ ⟨i, hi⟩ hlt)
    exact ⟨h.2.1, h.1, h.2.2.2, h.2.2.1⟩

/-- Witness for C3: two write-disjoint systems land in one batch and the
theorem's guarantees hold for them. -/
theorem c3_batch_safety_witness :
    [⟨0, some "w1", [], ["p"], false, [], []⟩, ⟨2, some "r", ["q"], [], false, [], []⟩] ∈
      batchSystems [⟨0, some "w1", [], ["p"], false, [], []⟩,
                    ⟨2, some "r", ["q"], [], false, [], []⟩] ∧
    (("p" : String) ∉ (["q"] : List String) ∧ ("p" : String) ∉ ([] : List String)) := by
  have hb : [(⟨0, some "w1", [], ["p"], false, [], []⟩ : Sys),
             ⟨2, some "r", ["q"], [], false, [], []⟩] ∈
      batchSystems [⟨0, some "w1", [], ["p"], false, [], []⟩,
                    ⟨2, some "r", ["q"], [], false, [], []⟩] := by
    rw [show batchSystems [(⟨0, some "w1", [], ["p"], false, [], []⟩ : Sys),
          ⟨2, some "r", ["q"], [], false, [], []⟩] =
        [[⟨0, some "w1", [], ["p"], false, [], []⟩,
          ⟨2, some "r", ["q"], [], false, [], []⟩]] from rfl]
    simp
  refine ⟨hb, ?_⟩
  have h := c3_batch_safety
      [⟨0, some "w1", [], ["p"], false, [], []⟩, ⟨2, some "r", ["q"], [], false, [], []⟩]
      _ hb 0 1 (by decide) (by decide) (by decide)
  exact h.2.2.1 "p" (by simp)

/-! ### More association-list and set lemmas -/

theorem aget_aset_self {κ ν : Type} [DecidableEq κ] (l : List (κ × ν)) (k : κ) (v : ν) :
    aget (aset l k v) k = some v := by
  induction l with
  | nil => simp [aset, aget]
  | cons p rest ih =>
      obtain ⟨k', v'⟩ := p
      by_cases hk : k' = k
      · subst hk; simp [aset, aget]
      · simp [aset, aget, hk, ih]

theorem aget_aset_ne {κ ν : Type} [DecidableEq κ] (l : List (κ × ν)) {k k' : κ} (v : ν)
    (h : k' ≠ k) : aget (aset l k v) k' = aget l k' := by
  induction l with
  | nil => simp [aset, aget, Ne.symm h]
  | cons p rest ih =>
      obtain ⟨k₀, v₀⟩ := p
      by_cases hk : k₀ = k
      · subst hk; simp [aset, aget, Ne.symm h]
      · by_cases hk' : k₀ = k'
        · subst hk'; simp [aset, aget, hk]
        · simp [aset, aget, hk, hk', ih]

theorem aset_mem_sub {κ ν : Type} [DecidableEq κ] {l : List (κ × ν)} {k : κ} {v : ν}
    {p : κ × ν} (h : p ∈ aset l k v) : p = (k, v) ∨ p ∈ l := by
  induction l with
  | nil => simpa [aset] using h
  | cons q rest ih =>
      obtain ⟨k₀, v₀⟩ := q
      by_cases hk : k₀ = k
      · subst hk
        simp only [aset, if_pos rfl] at h
        rcases List.mem_cons.mp h with h | h
        · exact Or.inl h
        · exact Or.inr (List.mem_cons_of_mem _ h)
      · simp only [aset, if_neg hk] at h
        rcases List.mem_cons.mp h with h | h
        · exact Or.inr (by simp [h])
        · rcases ih h with h | h
          · exact Or.inl h
          · exact Or.inr (List.mem_cons_of_mem _ h)

theorem adel_mem_sub {κ ν : Type} [DecidableEq κ] {l : List (κ × ν)} {k : κ}
    {p : κ × ν} (h : p ∈ adel l k) : p ∈ l := by
  induction l with
  | nil => simpa [adel] using h
  | cons q rest ih =>
      obtain ⟨k₀, v₀⟩ := q
      by_cases hk : k₀ = k
      · subst hk
        simp only [adel, if_pos rfl] at h
        exact List.mem_cons_of_mem _ h
      · simp only [adel, if_neg hk] at h
        rcases List.mem_cons.mp h with h | h
        · exact (by simp [h])
        · exact List.mem_cons_of_mem _ (ih h)

theorem aget_append_of_none {κ ν : Type} [DecidableEq κ] {l₁ : List (κ × ν)}
    (l₂ : List (κ × ν)) {k : κ} (h : aget l₁ k = none) :
    aget (l₁ ++ l₂) k = aget l₂ k := by
  induction l₁ with
  | nil => simp
  | cons p rest ih =>
      obtain ⟨k', v'⟩ := p
      by_cases hk : k' = k
      · subst hk; simp [aget] at h
      · simp only [aget, List.cons_append, if_neg hk] at h ⊢
        exact ih h

theorem ahas_eq_false {κ ν : Type} [DecidableEq κ] {l : List (κ × ν)} {k : κ} :
    ahas l k = false ↔ aget l k = none := by
  unfold ahas
  cases aget l k <;> simp

theorem jsSetOf_eq_self {σ : Type} [DecidableEq σ] {l : List σ} (h : l.Nodup) :
    jsSetOf l = l := by
  suffices key : ∀ (l acc : List σ), l.Nodup → (∀ x ∈ l, x ∉ acc) →
      l.foldl (fun acc n => if n ∈ acc then acc else acc ++ [n]) acc = acc ++ l by
    simpa using key l [] h (by simp)
  intro l
  induction l with
  | nil => intro acc _ _; simp
  | cons x rest ih =>
      intro acc hnd hdisj
      have hx : x ∉ acc := hdisj x (by simp)
      simp only [List.foldl_cons, if_neg hx]
      rw [ih (acc ++ [x]) (List.nodup_cons.mp hnd).2]
      · simp
      · intro y hy
        simp only [List.mem_append, List.mem_singleton]
        rintro (h | h)
        · exact hdisj y (List.mem_cons_of_mem _ hy) h
        · subst h; exact (List.nodup_cons.mp hnd).1 hy

/-! ### Except-monad inversion helpers -/

theorem exceptBind_ok {ε β γ : Type} {e : Except ε β} {f : β → Except ε γ} {c : γ}
    (h : (e >>= f) = .ok c) : ∃ b, e = .ok b ∧ f b = .ok c := by
  cases e with
  | error err => simp [Bind.bind, Except.bind] at h
  | ok b => exact ⟨b, rfl, by simpa [Bind.bind, Except.bind] using h⟩

theorem exceptPure_eq {ε β : Type} (b : β) : (pure b : Except ε β) = .ok b := rfl

/-! ### Bitmask-key lemmas -/

/-- Bits of a key fold: a bit is set exactly when the accumulator has it
or some member's registry bit is it. -/
theorem getArchetypeKeyFrom_testBit {r : ComponentIDRegistry} :
    ∀ {names : List String} {acc k : Nat},
    Archetype.getArchetypeKeyFrom r names acc = .ok k →
    ∀ b, k.testBit b = true ↔
      (acc.testBit b = true ∨ ∃ n ∈ names, r.getBit n = .ok b) := by
  intro names
  induction names with
  | nil =>
      intro acc k h b
      simp only [Archetype.getArchetypeKeyFrom, List.foldlM_nil] at h
      cases h
      simp
  | cons n rest ih =>
      intro acc k h b
      simp only [Archetype.getArchetypeKeyFrom, List.foldlM_cons] at h
      obtain ⟨acc', hstep, hrest⟩ := exceptBind_ok h
      obtain ⟨bit, hbit, hpure⟩ := exceptBind_ok hstep
      rw [exceptPure_eq] at hpure
      have hacc' : acc' = acc ||| (1 <<< bit) := by cases hpure; rfl
      subst hacc'
      have := ih hrest b
      rw [this]
      have hone : (1 <<< bit : Nat) = 2 ^ bit := by rw [Nat.shiftLeft_eq, one_mul]
      constructor
      · rintro (h | h)
        · rw [Nat.testBit_lor, hone, Nat.testBit_two_pow, Bool.or_eq_true] at h
          rcases h with h | h
          · exact Or.inl h
          · refine Or.inr ⟨n, by simp, ?_⟩
            rw [hbit]
            simp at h
            rw [h]
        · obtain ⟨m, hm, hmb⟩ := h
          exact Or.inr ⟨m, List.mem_cons_of_mem _ hm, hmb⟩
      · rintro (h | ⟨m, hm, hmb⟩)
        · exact Or.inl (by rw [Nat.testBit_lor, h, Bool.true_or])
        · rcases List.mem_cons.mp hm with hm | hm
          · subst hm
            refine Or.inl ?_
            rw [hbit] at hmb
            cases hmb
            rw [Nat.testBit_lor, hone, Nat.testBit_two_pow]
            simp
          · exact Or.inr ⟨m, hm, hmb⟩

/-- Or-ing an extra mask into the accumulator ors it into the result. -/
theorem getArchetypeKeyFrom_lor {r : ComponentIDRegistry} :
    ∀ {names : List String} {acc k : Nat},
    Archetype.getArchetypeKeyFrom r names acc = .ok k →
    ∀ x, Archetype.getArchetypeKeyFrom r names (acc ||| x) = .ok (k ||| x) := by
  intro names
  induction names with
  | nil =>
      intro acc k h x
      simp only [Archetype.getArchetypeKeyFrom, List.foldlM_nil] at h ⊢
      cases h; rfl
  | cons n rest ih =>
      intro acc k h x
      simp only [Archetype.getArchetypeKeyFrom, List.foldlM_cons] at h ⊢
      obtain ⟨acc', hstep, hrest⟩ := exceptBind_ok h
      obtain ⟨bit, hbit, hpure⟩ := exceptBind_ok hstep
      rw [exceptPure_eq] at hpure
      have hacc' : acc' = acc ||| (1 <<< bit) := by cases hpure; rfl
      subst hacc'
      have hih := ih hrest x
      simp only [Archetype.getArchetypeKeyFrom] at hih
      rw [hbit]
      simp only [Bind.bind, Except.bind, exceptPure_eq]
      rw [show acc ||| x ||| 1 <<< bit = acc ||| 1 <<< bit ||| x by
          rw [Nat.lor_assoc, Nat.lor_assoc, Nat.lor_comm x (1 <<< bit)]]
      exact hih

/-- The fold succeeds whenever every member is registered. -/
theorem getArchetypeKeyFrom_isOk {r : ComponentIDRegistry} :
    ∀ {names : List String} (acc : Nat),
    (∀ n ∈ names, ∃ b, r.getBit n = .ok b) →
    ∃ k, Archetype.getArchetypeKeyFrom r names acc = .ok k := by
  intro names
  induction names with
  | nil => intro acc _; exact ⟨acc, rfl⟩
  | cons n rest ih =>
      intro acc hreg
      obtain ⟨b, hb⟩ := hreg n (by simp)
      obtain ⟨k, hk⟩ := ih (acc ||| (1 <<< b))
        (fun m hm => hreg m (List.mem_cons_of_mem _ hm))
      refine ⟨k, ?_⟩
      simp only [Archetype.getArchetypeKeyFrom, List.foldlM_cons] at hk ⊢
      rw [hb]
      simpa [Bind.bind, Except.bind] using hk

/-- The fold succeeding means every member is registered. -/
theorem getArchetypeKeyFrom_ok_registered {r : ComponentIDRegistry} :
    ∀ {names : List String} {acc k : Nat},
    Archetype.getArchetypeKeyFrom r names acc = .ok k →
    ∀ n ∈ names, ∃ b, r.getBit n = .ok b := by
  intro names
  induction names with
  | nil => intro acc k _ n hn; simp at hn
  | cons m rest ih =>
      intro acc k h n hn
      simp only [Archetype.getArchetypeKeyFrom, List.foldlM_cons] at h
      obtain ⟨acc', hstep, hrest⟩ := exceptBind_ok h
      obtain ⟨bit, hbit, hpure⟩ := exceptBind_ok hstep
      rcases List.mem_cons.mp hn with hn | hn
      · subst hn; exact ⟨bit, hbit⟩
      · exact ih hrest n hn

/-- Superset relation is preserved by enlarging the key. -/
theorem mask_superset_lor {a m : Nat} (h : a &&& m = m) (x : Nat) :
    (a ||| x) &&& m = m := by
  apply Nat.eq_of_testBit_eq
  intro i
  have hi := congrArg (fun t => Nat.testBit t i) h
  simp only [Nat.testBit_land] at hi
  simp only [Nat.testBit_land, Nat.testBit_lor]
  cases hm : m.testBit i with
  | false => simp [hm]
  | true =>
      rw [hm] at hi
      simp only [Bool.and_true] at hi
      simp [hm, hi]

/-- A key lacking a bit of the mask fails the superset test. -/
theorem mask_not_superset {k m b : Nat} (hm : m.testBit b = true)
    (hk : k.testBit b = false) : k &&& m ≠ m := by
  intro h
  have := congrArg (fun t => Nat.testBit t b) h
  simp only [Nat.testBit_land, hk, hm, Bool.false_and] at this
  exact Bool.noConfusion this

/-! ### Operation inversion lemmas -/

theorem pushColumns_fields {α : Type} (entity : Nat) (cmap : List (String × α)) :
    ∀ (names : List String) (ar : Archetype α),
      (Archetype.pushColumns entity cmap names ar).2.signature = ar.signature ∧
      (Archetype.pushColumns entity cmap names ar).2.key = ar.key ∧
      (Archetype.pushColumns entity cmap names ar).2.entities = ar.entities := by
  intro names
  induction names with
  | nil => intro ar; exact ⟨rfl, rfl, rfl⟩
  | cons n rest ih =>
      intro ar
      simp only [Archetype.pushColumns]
      cases aget cmap n with
      | none => exact ⟨rfl, rfl, rfl⟩
      | some v => exact ih _

theorem addEntity_ok {α : Type} {ar : Archetype α} {e : Nat} {cmap : List (String × α)}
    {idx : Nat} {ar' : Archetype α} (h : ar.addEntity e cmap = (.ok idx, ar')) :
    idx = ar.entities.length ∧ ar'.entities = ar.entities ++ [e] ∧
    ar'.key = ar.key ∧ ar'.signature = ar.signature := by
  unfold Archetype.addEntity at h
  rcases hp : Archetype.pushColumns e cmap ar.signature ar with ⟨res, arp⟩
  obtain ⟨hsig, hkey, hent⟩ := pushColumns_fields e cmap ar.signature ar
  rw [hp] at h hsig hkey hent
  cases res with
  | error err => simp at h
  | ok u =>
      simp only [Prod.mk.injEq, Except.ok.injEq] at h
      obtain ⟨hidx, har⟩ := h
      simp only at hsig hkey hent
      subst har
      refine ⟨?_, ?_, ?_, ?_⟩
      · rw [← hidx, hent]
      · show arp.entities ++ [e] = ar.entities ++ [e]
        rw [hent]
      · exact hkey
      · exact hsig

theorem archRemoveEntity_ok {α : Type} {ar : Archetype α} {e : Nat} {ar2 : Archetype α}
    (h : ar.removeEntity e = .ok ar2) :
    ar2.key = ar.key ∧ ar2.signature = ar.signature ∧
    ar2.size = ar.size - 1 ∧ 0 < ar.size := by
  unfold Archetype.removeEntity at h
  cases hidx : ar.entities.indexOf? e with
  | none => rw [hidx] at h; simp at h
  | some i =>
      rw [hidx] at h
      simp only [Except.ok.injEq] at h
      unfold List.indexOf? at hidx
      have hlt : i < ar.entities.length := (List.findIdx?_eq_some_iff_findIdx_eq.mp hidx).1
      subst h
      refine ⟨rfl, rfl, ?_, ?_⟩
      · simp only [Archetype.size, List.length_eraseIdx, hlt, if_true]
      · exact Nat.lt_of_le_of_lt (Nat.zero_le i) hlt

theorem setComponentAt_ok {α : Type} {ar : Archetype α} {n : String} {i : Nat} {d : α}
    {ar' : Archetype α} (h : ar.setComponentAt n i d = .ok ar') :
    ar'.key = ar.key ∧ ar'.signature = ar.signature ∧ ar'.entities = ar.entities := by
  unfold Archetype.setComponentAt at h
  by_cases hs : n ∈ ar.signature
  · simp only [hs, not_true_eq_false, if_false] at h
    by_cases hi : i < ar.entities.length
    · simp only [hi, if_true, Except.ok.injEq] at h
      subst h
      exact ⟨rfl, rfl, rfl⟩
    · simp [hi] at h
  · simp [hs] at h

theorem getOrCreateArchetype_ok {α : Type} {w : World α} {sig : List String} {key : Nat}
    {w₂ : World α} (h : w.getOrCreateArchetype sig = .ok (key, w₂)) :
    Archetype.getArchetypeKey w.componentRegistry sig = .ok key ∧
    sig.isEmpty = false ∧
    w₂.componentRegistry = w.componentRegistry ∧
    w₂.entityLocations = w.entityLocations ∧ w₂.nextEntity = w.nextEntity ∧
    ((ahas w.archetypes key = true ∧ w₂.archetypes = w.archetypes) ∨
     (ahas w.archetypes key = false ∧
      w₂.archetypes = w.archetypes ++ [(key, Archetype.create α sig key)])) := by
  unfold World.getOrCreateArchetype at h
  by_cases hemp : sig.isEmpty
  · rw [if_pos hemp] at h
    exact absurd h (by simp)
  · rw [if_neg hemp] at h
    cases hk : Archetype.getArchetypeKey w.componentRegistry sig with
    | error e =>
        simp only [hk] at h
        exact absurd h (by simp)
    | ok k =>
        simp only [hk] at h
        by_cases hhas : ahas w.archetypes k
        · rw [if_pos hhas] at h
          injection h with hp
          injection hp with h1 h2
          subst h1
          subst h2
          exact ⟨rfl, by simpa using hemp, rfl, rfl, rfl, Or.inl ⟨hhas, rfl⟩⟩
        · rw [if_neg hhas] at h
          injection h with hp
          injection hp with h1 h2
          subst h1
          subst h2
          exact ⟨rfl, by simpa using hemp, rfl, rfl, rfl,
            Or.inr ⟨by simpa using hhas, rfl⟩⟩

theorem insertInto_ok {α : Type} {w : World α} {e : Nat} {sig : List String}
    {cmap : List (String × α)} {w' : World α} (h : w.insertInto e sig cmap = .ok w') :
    ∃ key ar₀ idx ar₁,
      Archetype.getArchetypeKey w.componentRegistry sig = .ok key ∧
      sig.isEmpty = false ∧
      ((ahas w.archetypes key = true ∧ aget w.archetypes key = some ar₀) ∨
       (ahas w.archetypes key = false ∧ ar₀ = Archetype.create α sig key)) ∧
      ar₀.addEntity e cmap = (.ok idx, ar₁) ∧
      w'.componentRegistry = w.componentRegistry ∧
      w'.nextEntity = w.nextEntity ∧
      w'.archetypes =
        aset (if ahas w.archetypes key then w.archetypes
              else w.archetypes ++ [(key, Archetype.create α sig key)]) key ar₁ ∧
      w'.entityLocations = aset w.entityLocations e (some ⟨ar₀.key, idx⟩) := by
  unfold World.insertInto at h
  cases hg : w.getOrCreateArchetype sig with
  | error err =>
      simp only [hg] at h
      exact absurd h (by simp)
  | ok p =>
      obtain ⟨key, w₂⟩ := p
      simp only [hg] at h
      obtain ⟨hkey, hemp, hreg, hloc, hnext, hcase⟩ := getOrCreateArchetype_ok hg
      cases hget : aget w₂.archetypes key with
      | none =>
          simp only [hget] at h
          exact absurd h (by simp)
      | some ar₀ =>
          simp only [hget] at h
          rcases hadd : ar₀.addEntity e cmap with ⟨res, ar₁⟩
          simp only [hadd] at h
          cases res with
          | error err => simp at h
          | ok idx =>
              simp only [Except.ok.injEq] at h
              subst h
              refine ⟨key, ar₀, idx, ar₁, hkey, hemp, ?_, hadd, hreg, hnext, ?_, ?_⟩
              · rcases hcase with ⟨hhas, harch⟩ | ⟨hhas, harch⟩
                · rw [harch] at hget
                  exact Or.inl ⟨hhas, hget⟩
                · rw [harch] at hget
                  have hnone : aget (w.archetypes ++ [(key, Archetype.create α sig key)]) key =
                      some (Archetype.create α sig key) := by
                    rw [aget_append_of_none _ (ahas_eq_false.mp hhas)]
                    simp [aget]
                  rw [hnone] at hget
                  exact Or.inr ⟨hhas, by injection hget with h2; exact h2.symm⟩
              · rcases hcase with ⟨hhas, harch⟩ | ⟨hhas, harch⟩
                · simp [hhas, harch]
                · simp [hhas, harch]
              · rw [hloc]

/-! ### Claim C6: query execution -/

theorem mem_jsSetOf {σ : Type} [DecidableEq σ] {l : List σ} {x : σ} :
    x ∈ jsSetOf l ↔ x ∈ l := by
  suffices key : ∀ (l acc : List σ),
      (x ∈ l.foldl (fun acc n => if n ∈ acc then acc else acc ++ [n]) acc ↔
        x ∈ acc ∨ x ∈ l) by
    simpa [jsSetOf] using key l []
  intro l
  induction l with
  | nil => intro acc; simp
  | cons y rest ih =>
      intro acc
      by_cases hy : y ∈ acc
      · simp only [List.foldl_cons, if_pos hy, ih]
        constructor
        · rintro (h | h)
          · exact Or.inl h
          · exact Or.inr (List.mem_cons_of_mem _ h)
        · rintro (h | h)
          · exact Or.inl h
          · rcases List.mem_cons.mp h with h | h
            · subst h; exact Or.inl hy
            · exact Or.inr h
      · simp only [List.foldl_cons, if_neg hy, ih]
        constructor
        · rintro (h | h)
          · rcases List.mem_append.mp h with h | h
            · exact Or.inl h
            · simp at h; subst h; exact Or.inr (by simp)
          · exact Or.inr (List.mem_cons_of_mem _ h)
        · rintro (h | h)
          · exact Or.inl (List.mem_append_left _ h)
          · rcases List.mem_cons.mp h with h | h
            · subst h; exact Or.inl (by simp)
            · exact Or.inr h

theorem getBit_ok_iff {r : ComponentIDRegistry} {n : String} {b : Nat} :
    r.getBit n = .ok b ↔ aget r.componentToBit n = some b := by
  unfold ComponentIDRegistry.getBit
  cases aget r.componentToBit n <;> simp

/-- A registered accessor whose bit lies in a mask that an archetype's
key covers belongs to the archetype's signature (key-injectivity of a
well-formed registry). -/
theorem accessor_mem_signature {α : Type} {r : ComponentIDRegistry} (hreg : RegInv r)
    {ar : Archetype α} (hkey : Archetype.getArchetypeKey r ar.signature = .ok ar.key)
    {a : String} {b mask : Nat} (hb : r.getBit a = .ok b)
    (hsup : ar.key &&& mask = mask) (hmb : mask.testBit b = true) : a ∈ ar.signature := by
  have hkb : ar.key.testBit b = true := by
    have := congrArg (fun t => Nat.testBit t b) hsup
    simp only [Nat.testBit_land, hmb, Bool.and_true] at this
    exact this
  have := (getArchetypeKeyFrom_testBit (r := r) hkey b).mp hkb
  rcases this with h | ⟨n, hn, hnb⟩
  · simp [Nat.zero_testBit] at h
  · have : n = a :=
      regInv_injective hreg (getBit_ok_iff.mp hnb) (getBit_ok_iff.mp hb)
    exact this ▸ hn

theorem mapM_ok {β γ : Type} {l : List β} {f : β → Except WErr γ} {g : β → γ}
    (h : ∀ x ∈ l, f x = .ok (g x)) : l.mapM f = .ok (l.map g) := by
  induction l with
  | nil => rfl
  | cons x rest ih =>
      rw [List.mapM_cons, h x (by simp), List.map_cons,
        ih (fun y hy => h y (List.mem_cons_of_mem _ hy))]
      rfl

/-- Claim C6: `hasComponents` is exactly the superset test
`(archetypeKey & queryKey) == queryKey`, and query iteration yields
exactly the rows of the archetypes whose key is a superset of the
filter mask computed from all declared component names, each row as the
entity followed by the non-`omit` component values in declaration
order. -/
theorem c6_query_execution {α : Type} [Inhabited α] (reg : ComponentIDRegistry)
    (archetypes : List (Nat × Archetype α)) (accesses : List (String × AccessMode))
    (mask : Nat) (hreg : RegInv reg)
    (harch : ∀ entry ∈ archetypes, ArchWF reg entry)
    (hmask : Archetype.getArchetypeKey reg (jsSetOf (accesses.map Prod.fst)) = .ok mask) :
    (∀ source query, Archetype.hasComponentsKey source query = true ↔
        source &&& query = query) ∧
    queryRun reg archetypes accesses =
      .ok (queryRowsSpec archetypes
        ((accesses.map Prod.fst).filter (fun n => aget accesses n ≠ some AccessMode.omit))
        mask) := by
  constructor
  · intro source query
    unfold Archetype.hasComponentsKey
    exact decide_eq_true_iff
  unfold queryRun
  dsimp only
  rw [hmask]
  simp only [Bind.bind, Except.bind]
  have hars : ∀ ar ∈ archetypes.map Prod.snd,
      Archetype.getArchetypeKey reg ar.signature = .ok ar.key := by
    intro ar har
    obtain ⟨entry, hmem, hsnd⟩ := List.mem_map.mp har
    obtain ⟨hk1, hk2, -⟩ := harch entry hmem
    rw [hsnd] at hk1 hk2
    rw [hk1]
    exact hk2
  set accessors :=
    (accesses.map Prod.fst).filter (fun n => aget accesses n ≠ some AccessMode.omit) with hacc
  have haccessor : ∀ a ∈ accessors, ∃ b, reg.getBit a = .ok b ∧ mask.testBit b = true := by
    intro a ha
    have hmem : a ∈ accesses.map Prod.fst := List.mem_of_mem_filter ha
    have hmem' : a ∈ jsSetOf (accesses.map Prod.fst) := mem_jsSetOf.mpr hmem
    obtain ⟨b, hb⟩ := getArchetypeKeyFrom_ok_registered hmask a hmem'
    refine ⟨b, hb, ?_⟩
    rw [getArchetypeKeyFrom_testBit (r := reg) hmask b]
    exact Or.inr ⟨a, hmem', hb⟩
  suffices key : ∀ (l : List (Archetype α)) (acc : List (Nat × List α)),
      (∀ ar ∈ l, Archetype.getArchetypeKey reg ar.signature = .ok ar.key) →
      (l.foldlM (fun rows ar =>
        if ar.hasComponents mask then do
          let newRows ← (List.range ar.size).mapM (fun i => do
            let entity ← ar.getEntityAt i
            let vals ← accessors.mapM (fun a => ar.getComponentAt a i)
            pure (entity, vals))
          pure (rows ++ newRows)
        else pure rows) acc) =
      .ok (acc ++ (l.filter (fun ar => ar.hasComponents mask)).flatMap
        (fun ar => (List.range ar.size).map
          (fun i => (ar.entities.getD i 0, accessors.map (fun a => (ar.col a).getD i default))))) by
    refine Eq.trans (key (archetypes.map Prod.snd) [] hars) ?_
    unfold queryRowsSpec
    simp
  intro l
  induction l with
  | nil =>
      intro acc _
      simp only [List.foldlM_nil, List.filter_nil, List.flatMap_nil, List.append_nil]
      rfl
  | cons ar rest ih =>
      intro acc hall
      rw [List.foldlM_cons]
      by_cases hpass : ar.hasComponents mask
      · have hrow : ∀ i ∈ List.range ar.size,
            (do
              let entity ← ar.getEntityAt i
              let vals ← accessors.mapM (fun a => ar.getComponentAt a i)
              pure (entity, vals) : Except WErr (Nat × List α)) =
            .ok (ar.entities.getD i 0,
                 accessors.map (fun a => (ar.col a).getD i default)) := by
          intro i hi
          have hlt : i < ar.entities.length := List.mem_range.mp hi
          have hent : ar.getEntityAt i = .ok (ar.entities.getD i 0) := by
            unfold Archetype.getEntityAt
            rw [if_pos hlt]
          have hvals : accessors.mapM (fun a => ar.getComponentAt a i) =
              .ok (accessors.map (fun a => (ar.col a).getD i default)) := by
            refine mapM_ok ?_
            intro a ha
            obtain ⟨b, hb, hmb⟩ := haccessor a ha
            have hsup : ar.key &&& mask = mask := by
              have := hpass
              unfold Archetype.hasComponents Archetype.hasComponentsKey at this
              exact of_decide_eq_true this
            have hmem := accessor_mem_signature hreg (hall ar (by simp)) hb hsup hmb
            unfold Archetype.getComponentAt
            rw [if_neg (by simpa using hmem), if_pos hlt]
          rw [hent]
          simp only [Bind.bind, Except.bind]
          rw [hvals]
          rfl
        have hmapM := mapM_ok hrow
        rw [if_pos hpass,
          show List.filter (fun ar => ar.hasComponents mask) (ar :: rest) =
            ar :: List.filter (fun ar => ar.hasComponents mask) rest from
            List.filter_cons_of_pos hpass,
          List.flatMap_cons, hmapM]
        exact (ih _ (fun a ha => hall a (List.mem_cons_of_mem _ ha))).trans
          (by rw [List.append_assoc])
      · rw [if_neg hpass,
          show List.filter (fun ar => ar.hasComponents mask) (ar :: rest) =
            List.filter (fun ar => ar.hasComponents mask) rest from
            List.filter_cons_of_neg (by simpa using hpass)]
        exact ih acc (fun a ha => hall a (List.mem_cons_of_mem _ ha))

/-- Witness for C6: a one-archetype world with a single `read` query. -/
theorem c6_query_execution_witness :
    queryRun ⟨[("a", 0)], 1⟩
        [(1, (⟨["a"], 1, [0], [("a", [7])]⟩ : Archetype Nat))]
        [("a", AccessMode.read)] =
      .ok (queryRowsSpec [(1, (⟨["a"], 1, [0], [("a", [7])]⟩ : Archetype Nat))]
        (([("a", AccessMode.read)].map Prod.fst).filter
          (fun n => aget [("a", AccessMode.read)] n ≠ some AccessMode.omit)) 1) :=
  (c6_query_execution ⟨[("a", 0)], 1⟩
    [(1, (⟨["a"], 1, [0], [("a", [7])]⟩ : Archetype Nat))]
    [("a", AccessMode.read)] 1 (by decide) (by decide) (by decide)).2

/-! ### Claim C7: query-membership monotonicity -/

/-- Updating an entry with one of equal key field and signature preserves
archetype well-formedness. -/
theorem archWF_aset {α : Type} {r : ComponentIDRegistry} {l : List (Nat × Archetype α)}
    (hl : ∀ p ∈ l, ArchWF r p) {k : Nat} {ar ar2 : Archetype α}
    (hget : aget l k = some ar) (hkey : ar2.key = ar.key) (hsig : ar2.signature = ar.signature) :
    ∀ p ∈ aset l k ar2, ArchWF r p := by
  intro p hp
  rcases aset_mem_sub hp with h | h
  · subst h
    obtain ⟨h1, h2, h3⟩ := hl (k, ar) (aget_mem hget)
    exact ⟨by rw [hkey]; exact h1, by rw [hsig]; exact h2, by rw [hsig]; exact h3⟩
  · exact hl p h

/-- A name outside a duplicate-free signature contributes no bit to the
signature's key. -/
theorem key_testBit_not_mem {r : ComponentIDRegistry} (hreg : RegInv r) {sig : List String}
    {k : Nat} (hk : Archetype.getArchetypeKey r sig = .ok k) {n : String} {b : Nat}
    (hb : r.getBit n = .ok b) (hnot : n ∉ sig) : k.testBit b = false := by
  by_contra h
  have htrue : k.testBit b = true := by revert h; cases k.testBit b <;> simp
  rcases (getArchetypeKeyFrom_testBit hk b).mp htrue with h0 | ⟨m, hm, hmb⟩
  · simp [Nat.zero_testBit] at h0
  · have heq := regInv_injective hreg (getBit_ok_iff.mp hmb) (getBit_ok_iff.mp hb)
    exact hnot (heq ▸ hm)

/-- The key of an extended signature is the old key with the new bit
or-ed in. -/
theorem getArchetypeKey_cons {r : ComponentIDRegistry} {n : String} {b : Nat}
    {sig : List String} {k : Nat} (hb : r.getBit n = .ok b)
    (hk : Archetype.getArchetypeKey r sig = .ok k) :
    Archetype.getArchetypeKey r (n :: sig) = .ok (k ||| (1 <<< b)) := by
  have hlor := getArchetypeKeyFrom_lor hk (1 <<< b)
  unfold Archetype.getArchetypeKey Archetype.getArchetypeKeyFrom at hlor ⊢
  rw [List.foldlM_cons]
  show (do
      let bit ← r.getBit n
      pure ((0 : Nat) ||| (1 <<< bit)) : Except WErr Nat) >>=
    (fun acc => sig.foldlM (fun mask name => do
      let bit ← r.getBit name
      pure (mask ||| (1 <<< bit))) acc) = .ok (k ||| 1 <<< b)
  rw [hb]
  simpa [Bind.bind, Except.bind] using hlor

/-- `addComponent` can only grow the entity's archetype key, so a mask
matched before the call is still matched after it. -/
theorem addComponent_preserves_match {α : Type} [Inhabited α] {w : World α} {e : Nat}
    {n : String} {d : α} {w' : World α} {loc : EntityLocation} {ar : Archetype α} {mask : Nat}
    (hwf : WorldWF w) (hok : w.addComponent e n d = .ok w')
    (hloc : aget w.entityLocations e = some (some loc))
    (har : aget w.archetypes loc.archetype = some ar)
    (hsup : ar.key &&& mask = mask) :
    entityMatches w' e mask := by
  obtain ⟨hreg, harch⟩ := hwf
  have hhas : ahas w.entityLocations e = true := by unfold ahas; rw [hloc]; rfl
  unfold World.addComponent at hok
  rw [if_neg (not_not_intro hhas)] at hok
  simp only [hloc, Option.getD_some, har] at hok
  by_cases hin : n ∈ ar.signature
  · rw [if_pos hin] at hok
    cases hset : ar.setComponentAt n loc.index d with
    | error err =>
        simp only [hset] at hok
        exact absurd hok (by simp)
    | ok ar' =>
        simp only [hset, Except.ok.injEq] at hok
        subst hok
        obtain ⟨hk, hs, he⟩ := setComponentAt_ok hset
        refine ⟨loc, ar', hloc, aget_aset_self .., ?_⟩
        unfold Archetype.hasComponents Archetype.hasComponentsKey
        exact decide_eq_true (by rw [hk]; exact hsup)
  · rw [if_neg hin] at hok
    cases hrow : ar.getComponentsAt loc.index with
    | error err =>
        simp only [hrow] at hok
        exact absurd hok (by simp)
    | ok row =>
        simp only [hrow] at hok
        cases hrem : ar.removeEntity e with
        | error err =>
            simp only [hrem] at hok
            exact absurd hok (by simp)
        | ok ar2 =>
            simp only [hrem] at hok
            obtain ⟨key, ar₀, idx, ar₁, hkey, hemp, hcase, hadd, hregeq, hnext,
              harchs, hlocs⟩ := insertInto_ok hok
            obtain ⟨hk1, hk2, hk3⟩ := harch _ (aget_mem har)
            have hksig : Archetype.getArchetypeKey w.componentRegistry ar.signature =
                .ok ar.key := by
              rw [show ar.key = loc.archetype from hk1]
              exact hk2
            have hjs : jsSetOf (n :: ar.signature) = n :: ar.signature :=
              jsSetOf_eq_self (List.nodup_cons.mpr ⟨hin, hk3⟩)
            have hkey' : Archetype.getArchetypeKey w.componentRegistry
                (n :: ar.signature) = .ok key := by
              have := hkey
              rw [hjs] at this
              exact this
            obtain ⟨b, hb⟩ := getArchetypeKeyFrom_ok_registered hkey' n (by simp)
            have hcons := getArchetypeKey_cons hb hksig
            have hkeyval : key = ar.key ||| (1 <<< b) := by
              rw [hcons] at hkey'
              injection hkey' with h
              exact h.symm
            obtain ⟨hrk, hrs, hrsize, hrpos⟩ := archRemoveEntity_ok hrem
            have hwf₁ : ∀ p ∈ aset w.archetypes loc.archetype ar2,
                ArchWF w.componentRegistry p :=
              archWF_aset harch har hrk hrs
            have har₀key : ar₀.key = key := by
              rcases hcase with ⟨-, hget⟩ | ⟨-, hfresh⟩
              · exact (hwf₁ _ (aget_mem hget)).1
              · rw [hfresh]; rfl
            obtain ⟨hidx, hent, hk₁, hs₁⟩ := addEntity_ok hadd
            refine ⟨⟨ar₀.key, idx⟩, ar₁, ?_, ?_, ?_⟩
            · rw [hlocs]
              exact aget_aset_self ..
            · rw [harchs, har₀key]
              exact aget_aset_self ..
            · unfold Archetype.hasComponents Archetype.hasComponentsKey
              refine decide_eq_true ?_
              rw [hk₁, har₀key, hkeyval]
              exact mask_superset_lor hsup _

/-- Inserting an entity into an archetype whose signature lacks `n`
leaves the entity unmatched by any mask containing `n`'s bit. -/
theorem insertInto_unmatches {α : Type} {w₂ : World α} {e : Nat} {n : String}
    {sig2 : List String} {cmap : List (String × α)} {w' : World α} {b mask : Nat}
    (hok : w₂.insertInto e sig2 cmap = .ok w')
    (hreg : RegInv w₂.componentRegistry)
    (hwfarch : ∀ p ∈ w₂.archetypes, ArchWF w₂.componentRegistry p)
    (hnot : n ∉ sig2)
    (hb : w₂.componentRegistry.getBit n = .ok b) (hmb : mask.testBit b = true) :
    ¬ entityMatches w' e mask := by
  obtain ⟨key, ar₀, idx, ar₁, hkey, hemp, hcase, hadd, hregeq, hnext,
    harchs, hlocs⟩ := insertInto_ok hok
  have har₀key : ar₀.key = key := by
    rcases hcase with ⟨-, hget⟩ | ⟨-, hfresh⟩
    · exact (hwfarch _ (aget_mem hget)).1
    · rw [hfresh]; rfl
  obtain ⟨hidx, hent, hk₁, hs₁⟩ := addEntity_ok hadd
  have hbit : key.testBit b = false := key_testBit_not_mem hreg hkey hb hnot
  rintro ⟨loc', ar', h1, h2, h3⟩
  rw [hlocs, aget_aset_self] at h1
  injection h1 with h1'
  injection h1' with h1''
  subst h1''
  rw [harchs] at h2
  rw [show (⟨ar₀.key, idx⟩ : EntityLocation).archetype = key from har₀key] at h2
  rw [aget_aset_self] at h2
  injection h2 with h2'
  subst h2'
  have hsup : ar₁.key &&& mask = mask := of_decide_eq_true h3
  rw [hk₁, har₀key] at hsup
  exact mask_not_superset hmb hbit hsup

/-- `removeComponent(e, n)` leaves `e` unmatched by any query mask that
contains `n`'s bit. -/
theorem removeComponent_unmatches {α : Type} [Inhabited α] {w : World α} {e : Nat}
    {n : String} {w' : World α} {b mask : Nat}
    (hwf : WorldWF w) (hok : w.removeComponent e n = .ok w')
    (hb : w.componentRegistry.getBit n = .ok b) (hmb : mask.testBit b = true) :
    ¬ entityMatches w' e mask := by
  obtain ⟨hreg, harch⟩ := hwf
  unfold World.removeComponent at hok
  by_cases hhas : ahas w.entityLocations e
  case neg =>
    rw [if_pos (by simpa using hhas)] at hok
    exact absurd hok (by simp)
  case pos =>
  rw [if_neg (not_not_intro hhas)] at hok
  cases hloc : aget w.entityLocations e with
  | none =>
      unfold ahas at hhas
      rw [hloc] at hhas
      simp at hhas
  | some locOpt =>
      simp only [hloc, Option.getD_some] at hok
      cases locOpt with
      | none =>
          injection hok with hw
          subst hw
          rintro ⟨loc', ar', h1, h2, h3⟩
          rw [hloc] at h1
          simp at h1
      | some loc =>
          cases har : aget w.archetypes loc.archetype with
          | none =>
              simp only [har] at hok
              exact absurd hok (by simp)
          | some ar =>
              simp only [har] at hok
              obtain ⟨hk1, hk2, hk3⟩ := harch _ (aget_mem har)
              have hksig : Archetype.getArchetypeKey w.componentRegistry ar.signature =
                  .ok ar.key := by
                rw [show ar.key = loc.archetype from hk1]
                exact hk2
              by_cases hin : n ∉ ar.signature
              · rw [if_pos hin] at hok
                injection hok with hw
                subst hw
                rintro ⟨loc', ar', h1, h2, h3⟩
                rw [hloc] at h1
                injection h1 with h1'
                injection h1' with h1''
                subst h1''
                rw [har] at h2
                injection h2 with h2'
                subst h2'
                have hbit := key_testBit_not_mem hreg hksig hb hin
                exact mask_not_superset hmb hbit (of_decide_eq_true h3)
              · rw [if_neg hin] at hok
                cases hrowE : ar.getComponentsAt loc.index with
                | error err =>
                    simp only [hrowE] at hok
                    exact absurd hok (by simp)
                | ok row =>
                    simp only [hrowE] at hok
                    cases hremE : ar.removeEntity e with
                    | error err =>
                        simp only [hremE] at hok
                        exact absurd hok (by simp)
                    | ok ar2 =>
                        simp only [hremE] at hok
                        obtain ⟨hrk, hrs, hrsize, hrpos⟩ := archRemoveEntity_ok hremE
                        have hwf₁ : ∀ p ∈ aset w.archetypes loc.archetype ar2,
                            ArchWF w.componentRegistry p :=
                          archWF_aset harch har hrk hrs
                        have hnot : n ∉ ar.signature.erase n := fun hmem =>
                          ((List.Nodup.mem_erase_iff hk3).mp hmem).1 rfl
                        by_cases hsz : ar2.size = 0
                        · rw [if_pos hsz] at hok
                          by_cases hempty : (ar.signature.erase n).isEmpty
                          · rw [if_pos hempty] at hok
                            injection hok with hw
                            subst hw
                            rintro ⟨loc', ar', h1, h2, h3⟩
                            rw [aget_aset_self] at h1
                            simp at h1
                          · rw [if_neg hempty] at hok
                            exact insertInto_unmatches hok hreg
                              (fun p hp => hwf₁ p (adel_mem_sub hp)) hnot hb hmb
                        · rw [if_neg hsz] at hok
                          by_cases hempty : (ar.signature.erase n).isEmpty
                          · rw [if_pos hempty] at hok
                            injection hok with hw
                            subst hw
                            rintro ⟨loc', ar', h1, h2, h3⟩
                            rw [aget_aset_self] at h1
                            simp at h1
                          · rw [if_neg hempty] at hok
                            exact insertInto_unmatches hok hreg hwf₁ hnot hb hmb

/-- Claim C7: query-membership is monotone under component mutation —
an entity whose archetype key covered a query's filter mask before
`addComponent` still covers it afterwards, and after
`removeComponent(e, n)` the entity matches no mask containing `n`'s
registry bit. -/
theorem c7_query_monotonicity {α : Type} [Inhabited α] (w : World α) (e : Nat) (n : String)
    (mask : Nat) (hwf : WorldWF w) :
    (∀ (d : α) (w' : World α) (loc : EntityLocation) (ar : Archetype α),
        w.addComponent e n d = .ok w' →
        aget w.entityLocations e = some (some loc) →
        aget w.archetypes loc.archetype = some ar →
        ar.key &&& mask = mask →
        entityMatches w' e mask) ∧
    (∀ (w' : World α) (b : Nat),
        w.removeComponent e n = .ok w' →
        w.componentRegistry.getBit n = .ok b →
        mask.testBit b = true →
        ¬ entityMatches w' e mask) :=
  ⟨fun _ _ _ _ hok hloc har hsup => addComponent_preserves_match hwf hok hloc har hsup,
   fun _ _ hok hb hmb => removeComponent_unmatches hwf hok hb hmb⟩

/-- Witness for C7: entity 0 of the `{a}` archetype still matches the
`a`-mask after gaining `b`, and no longer matches it after losing `a`. -/
theorem c7_query_monotonicity_witness :
    entityMatches c7Wadd 0 1 ∧ ¬ entityMatches c7Wrem 0 1 :=
  ⟨(c7_query_monotonicity c7W 0 "b" 1 (by decide)).1 9 c7Wadd ⟨1, 0⟩
      ⟨["a"], 1, [0], [("a", [7])]⟩ (by rfl) (by rfl) (by rfl) (by rfl),
   (c7_query_monotonicity c7W 0 "a" 1 (by decide)).2 c7Wrem 0
      (by rfl) (by rfl) (by rfl)⟩

/-! ### Claim C2 (amended): pruning on the remove operations -/

/-- Deleting the key just overwritten removes the overwritten entry. -/
theorem adel_aset {κ ν : Type} [DecidableEq κ] (l : List (κ × ν)) (k : κ) (v : ν) :
    adel (aset l k v) k = adel l k := by
  induction l with
  | nil => simp [aset, adel]
  | cons p rest ih =>
      obtain ⟨k₀, v₀⟩ := p
      by_cases hk : k₀ = k
      · subst hk; simp [aset, adel]
      · simp [aset, adel, hk, ih]

/-- Overwriting a key that exists only as the appended last entry
replaces that entry. -/
theorem aset_append_fresh {κ ν : Type} [DecidableEq κ] {l : List (κ × ν)} {k : κ}
    (h : aget l k = none) (v₀ v : ν) :
    aset (l ++ [(k, v₀)]) k v = l ++ [(k, v)] := by
  induction l with
  | nil => simp [aset]
  | cons p rest ih =>
      obtain ⟨k₀, w₀⟩ := p
      by_cases hk : k₀ = k
      · subst hk; simp [aget] at h
      · simp only [aget, if_neg hk] at h
        simp [aset, hk, ih h]

/-- The archetype produced by a successful insert is non-empty, and every
other entry of the updated collection was already present. -/
theorem insertInto_noEmpty {α : Type} {w₂ : World α} {e : Nat} {sig : List String}
    {cmap : List (String × α)} {w' : World α} (hok : w₂.insertInto e sig cmap = .ok w')
    (hne : NoEmptyArchetype w₂) : NoEmptyArchetype w' := by
  obtain ⟨key, ar₀, idx, ar₁, hkey, hemp, hcase, hadd, hregeq, hnext,
    harchs, hlocs⟩ := insertInto_ok hok
  obtain ⟨hidx, hent, hk₁, hs₁⟩ := addEntity_ok hadd
  have har₁ : ar₁.size ≠ 0 := by
    unfold Archetype.size
    rw [hent]
    simp
  intro p hp
  rw [harchs] at hp
  rcases hcase with ⟨hhas, -⟩ | ⟨hhas, -⟩
  · rw [if_pos hhas] at hp
    rcases aset_mem_sub hp with h | h
    · rw [h]; exact har₁
    · exact hne p h
  · rw [if_neg (by simp [hhas])] at hp
    rw [aset_append_fresh (ahas_eq_false.mp hhas) _ ar₁] at hp
    rcases List.mem_append.mp hp with h | h
    · exact hne p h
    · simp at h
      rw [h]
      exact har₁

/-- Claim C2 (amended): `removeEntity` and `removeComponent` prune the
archetype they empty, so starting from a collection with no empty
archetype, neither operation leaves one behind.  (`addComponent` and
`setComponents` do not prune — see the counterexample.) -/
theorem c2_prune_on_remove_operations {α : Type} [Inhabited α] (w : World α) (e : Nat)
    (n : String) :
    (∀ w', w.removeEntity e = .ok w' → NoEmptyArchetype w → NoEmptyArchetype w') ∧
    (∀ w', w.removeComponent e n = .ok w' → NoEmptyArchetype w → NoEmptyArchetype w') := by
  constructor
  · intro w' hok hne
    unfold World.removeEntity at hok
    by_cases hhas : ahas w.entityLocations e
    case neg =>
      rw [if_pos (by simpa using hhas)] at hok
      exact absurd hok (by simp)
    case pos =>
    rw [if_neg (not_not_intro hhas)] at hok
    cases hloc : aget w.entityLocations e with
    | none =>
        unfold ahas at hhas
        rw [hloc] at hhas
        simp at hhas
    | some locOpt =>
        simp only [hloc, Option.getD_some] at hok
        cases locOpt with
        | none =>
            injection hok with hw
            subst hw
            exact hne
        | some loc =>
            cases har : aget w.archetypes loc.archetype with
            | none =>
                simp only [har] at hok
                exact absurd hok (by simp)
            | some ar =>
                simp only [har] at hok
                cases hremE : ar.removeEntity e with
                | error err =>
                    simp only [hremE] at hok
                    exact absurd hok (by simp)
                | ok ar2 =>
                    simp only [hremE] at hok
                    by_cases hsz : ar2.size = 0
                    · rw [if_pos hsz] at hok
                      injection hok with hw
                      subst hw
                      intro p hp
                      simp only at hp
                      rw [adel_aset] at hp
                      exact hne p (adel_mem_sub hp)
                    · rw [if_neg hsz] at hok
                      injection hok with hw
                      subst hw
                      intro p hp
                      simp only at hp
                      rcases aset_mem_sub hp with h | h
                      · rw [h]; exact hsz
                      · exact hne p h
  · intro w' hok hne
    unfold World.removeComponent at hok
    by_cases hhas : ahas w.entityLocations e
    case neg =>
      rw [if_pos (by simpa using hhas)] at hok
      exact absurd hok (by simp)
    case pos =>
    rw [if_neg (not_not_intro hhas)] at hok
    cases hloc : aget w.entityLocations e with
    | none =>
        unfold ahas at hhas
        rw [hloc] at hhas
        simp at hhas
    | some locOpt =>
        simp only [hloc, Option.getD_some] at hok
        cases locOpt with
        | none =>
            injection hok with hw
            subst hw
            exact hne
        | some loc =>
            cases har : aget w.archetypes loc.archetype with
            | none =>
                simp only [har] at hok
                exact absurd hok (by simp)
            | some ar =>
                simp only [har] at hok
                by_cases hin : n ∉ ar.signature
                · rw [if_pos hin] at hok
                  injection hok with hw
                  subst hw
                  exact hne
                · rw [if_neg hin] at hok
                  cases hrowE : ar.getComponentsAt loc.index with
                  | error err =>
                      simp only [hrowE] at hok
                      exact absurd hok (by simp)
                  | ok row =>
                      simp only [hrowE] at hok
                      cases hremE : ar.removeEntity e with
                      | error err =>
                          simp only [hremE] at hok
                          exact absurd hok (by simp)
                      | ok ar2 =>
                          simp only [hremE] at hok
                          by_cases hsz : ar2.size = 0
                          · rw [if_pos hsz] at hok
                            have hne₂ : NoEmptyArchetype
                                (⟨w.nextEntity, w.componentRegistry,
                                  adel (aset w.archetypes loc.archetype ar2) loc.archetype,
                                  w.entityLocations⟩ : World α) := by
                              intro p hp
                              simp only at hp
                              rw [adel_aset] at hp
                              exact hne p (adel_mem_sub hp)
                            by_cases hempty : (ar.signature.erase n).isEmpty
                            · rw [if_pos hempty] at hok
                              injection hok with hw
                              subst hw
                              intro p hp
                              exact hne₂ p hp
                            · rw [if_neg hempty] at hok
                              exact insertInto_noEmpty hok hne₂
                          · rw [if_neg hsz] at hok
                            have hne₂ : NoEmptyArchetype
                                (⟨w.nextEntity, w.componentRegistry,
                                  aset w.archetypes loc.archetype ar2,
                                  w.entityLocations⟩ : World α) := by
                              intro p hp
                              simp only at hp
                              rcases aset_mem_sub hp with h | h
                              · rw [h]; exact hsz
                              · exact hne p h
                            by_cases hempty : (ar.signature.erase n).isEmpty
                            · rw [if_pos hempty] at hok
                              injection hok with hw
                              subst hw
                              intro p hp
                              exact hne₂ p hp
                            · rw [if_neg hempty] at hok
                              exact insertInto_noEmpty hok hne₂

/-- Witness for C2's amended statement: removing the only entity (or its
only component) prunes the emptied archetype. -/
theorem c2_prune_on_remove_operations_witness :
    NoEmptyArchetype (⟨1, ⟨[("a", 0)], 1⟩, [], []⟩ : World Nat) ∧
    NoEmptyArchetype (⟨1, ⟨[("a", 0)], 1⟩, [], [(0, none)]⟩ : World Nat) :=
  ⟨(c2_prune_on_remove_operations
      (⟨1, ⟨[("a", 0)], 1⟩, [(1, ⟨["a"], 1, [0], [("a", [7])]⟩)],
        [(0, some ⟨1, 0⟩)]⟩ : World Nat) 0 "a").1
      ⟨1, ⟨[("a", 0)], 1⟩, [], []⟩ (by rfl) (by decide),
   (c2_prune_on_remove_operations
      (⟨1, ⟨[("a", 0)], 1⟩, [(1, ⟨["a"], 1, [0], [("a", [7])]⟩)],
        [(0, some ⟨1, 0⟩)]⟩ : World Nat) 0 "a").2
      ⟨1, ⟨[("a", 0)], 1⟩, [], [(0, none)]⟩ (by rfl) (by decide)⟩

/-! ### DFS bookkeeping lemmas (claims C5 and C10) -/

theorem visitListF_ok_temp {f : Sys → DfsSt → Except SortErr DfsSt}
    (hf : ∀ d st st', f d st = .ok st' → st'.temp = st.temp) :
    ∀ (ds : List Sys) (st st' : DfsSt), visitListF f ds st = .ok st' → st'.temp = st.temp := by
  intro ds
  induction ds with
  | nil =>
      intro st st' h
      injection h with h
      rw [h]
  | cons d rest ih =>
      intro st st' h
      unfold visitListF at h
      cases hd : f d st with
      | error e => rw [hd] at h; exact absurd h (by simp)
      | ok st₁ =>
          rw [hd] at h
          rw [ih st₁ st' h, hf d st st₁ hd]

theorem visit_ok_temp (g : Graph) :
    ∀ (fuel : Nat) (s : Sys) (st st' : DfsSt),
      visit g fuel s st = .ok st' → st'.temp = st.temp := by
  intro fuel
  induction fuel with
  | zero =>
      intro s st st' h
      unfold visit at h
      by_cases h1 : s ∈ st.visited
      · rw [if_pos h1] at h; injection h with h; rw [h]
      · rw [if_neg h1] at h
        by_cases h2 : s ∈ st.temp
        · rw [if_pos h2] at h; exact absurd h (by simp)
        · rw [if_neg h2] at h; exact absurd h (by simp)
  | succ f ih =>
      intro s st st' h
      unfold visit at h
      by_cases h1 : s ∈ st.visited
      · rw [if_pos h1] at h; injection h with h; rw [h]
      · rw [if_neg h1] at h
        by_cases h2 : s ∈ st.temp
        · rw [if_pos h2] at h; exact absurd h (by simp)
        · rw [if_neg h2] at h
          cases hm : visitListF (visit g f) (graphGet g s) { st with temp := s :: st.temp } with
          | error e => rw [hm] at h; exact absurd h (by simp)
          | ok st₁ =>
              rw [hm] at h
              injection h with h
              have htemp := visitListF_ok_temp ih _ _ _ hm
              rw [← h]
              simp only [htemp, List.erase_cons_head]

theorem visitListF_ok_extend {f : Sys → DfsSt → Except SortErr DfsSt}
    (hf : ∀ d st st', f d st = .ok st' →
      ∃ t, st'.visited = st.visited ++ t ∧ st'.result = st.result ++ t) :
    ∀ (ds : List Sys) (st st' : DfsSt), visitListF f ds st = .ok st' →
      ∃ t, st'.visited = st.visited ++ t ∧ st'.result = st.result ++ t := by
  intro ds
  induction ds with
  | nil =>
      intro st st' h
      injection h with h
      exact ⟨[], by simp [h]⟩
  | cons d rest ih =>
      intro st st' h
      unfold visitListF at h
      cases hd : f d st with
      | error e => rw [hd] at h; exact absurd h (by simp)
      | ok st₁ =>
          rw [hd] at h
          obtain ⟨t₁, hv₁, hr₁⟩ := hf d st st₁ hd
          obtain ⟨t₂, hv₂, hr₂⟩ := ih st₁ st' h
          exact ⟨t₁ ++ t₂, by simp [hv₂, hv₁], by simp [hr₂, hr₁]⟩

theorem visit_ok_extend (g : Graph) :
    ∀ (fuel : Nat) (s : Sys) (st st' : DfsSt), visit g fuel s st = .ok st' →
      ∃ t, st'.visited = st.visited ++ t ∧ st'.result = st.result ++ t := by
  intro fuel
  induction fuel with
  | zero =>
      intro s st st' h
      unfold visit at h
      by_cases h1 : s ∈ st.visited
      · rw [if_pos h1] at h; injection h with h; exact ⟨[], by simp [h]⟩
      · rw [if_neg h1] at h
        by_cases h2 : s ∈ st.temp
        · rw [if_pos h2] at h; exact absurd h (by simp)
        · rw [if_neg h2] at h; exact absurd h (by simp)
  | succ f ih =>
      intro s st st' h
      unfold visit at h
      by_cases h1 : s ∈ st.visited
      · rw [if_pos h1] at h; injection h with h; exact ⟨[], by simp [h]⟩
      · rw [if_neg h1] at h
        by_cases h2 : s ∈ st.temp
        · rw [if_pos h2] at h; exact absurd h (by simp)
        · rw [if_neg h2] at h
          cases hm : visitListF (visit g f) (graphGet g s) { st with temp := s :: st.temp } with
          | error e => rw [hm] at h; exact absurd h (by simp)
          | ok st₁ =>
              rw [hm] at h
              injection h with h
              obtain ⟨t, hv, hr⟩ := visitListF_ok_extend ih _ _ _ hm
              refine ⟨t ++ [s], ?_, ?_⟩
              · rw [← h]
                simp only at hv
                simp [hv]
              · rw [← h]
                simp only at hr
                simp [hr]

theorem visit_ok_visited (g : Graph) (fuel : Nat) (s : Sys) (st st' : DfsSt)
    (h : visit g fuel s st = .ok st') : s ∈ st'.visited := by
  cases fuel with
  | zero =>
      unfold visit at h
      by_cases h1 : s ∈ st.visited
      · rw [if_pos h1] at h; injection h with h; rw [← h]; exact h1
      · rw [if_neg h1] at h
        by_cases h2 : s ∈ st.temp
        · rw [if_pos h2] at h; exact absurd h (by simp)
        · rw [if_neg h2] at h; exact absurd h (by simp)
  | succ f =>
      unfold visit at h
      by_cases h1 : s ∈ st.visited
      · rw [if_pos h1] at h; injection h with h; rw [← h]; exact h1
      · rw [if_neg h1] at h
        by_cases h2 : s ∈ st.temp
        · rw [if_pos h2] at h; exact absurd h (by simp)
        · rw [if_neg h2] at h
          cases hm : visitListF (visit g f) (graphGet g s) { st with temp := s :: st.temp } with
          | error e => rw [hm] at h; exact absurd h (by simp)
          | ok st₁ =>
              rw [hm] at h
              injection h with h
              rw [← h]
              simp

theorem visitListF_ok_all_visited (g : Graph) (fuel : Nat) :
    ∀ (ds : List Sys) (st st' : DfsSt), visitListF (visit g fuel) ds st = .ok st' →
      ∀ d ∈ ds, d ∈ st'.visited := by
  intro ds
  induction ds with
  | nil => intro st st' h d hd; simp at hd
  | cons x rest ih =>
      intro st st' h d hd
      unfold visitListF at h
      cases hx : visit g fuel x st with
      | error e => rw [hx] at h; exact absurd h (by simp)
      | ok st₁ =>
          rw [hx] at h
          rcases List.mem_cons.mp hd with hd | hd
          · subst hd
            have hmem := visit_ok_visited g fuel d st st₁ hx
            obtain ⟨t, hv, -⟩ := visitListF_ok_extend (visit_ok_extend g fuel) _ _ _ h
            rw [hv]
            exact List.mem_append_left _ hmem
          · exact ih st₁ st' h d hd

theorem indexOf_append_self {σ : Type} [DecidableEq σ] {l : List σ} {a : σ} (h : a ∉ l) :
    (l ++ [a]).indexOf a = l.length := by
  induction l with
  | nil => simp
  | cons b rest ih =>
      simp only [List.mem_cons, not_or] at h
      simp only [List.cons_append, List.indexOf_cons_ne _ (Ne.symm h.1), List.length_cons]
      rw [ih h.2]

theorem visitListF_ok_not_pushed {f : Sys → DfsSt → Except SortErr DfsSt}
    (hftemp : ∀ d st st', f d st = .ok st' → st'.temp = st.temp)
    (hf : ∀ d st st', f d st = .ok st' → ∀ s ∈ st.temp, s ∈ st'.result → s ∈ st.result) :
    ∀ (ds : List Sys) (st st' : DfsSt), visitListF f ds st = .ok st' →
      ∀ s ∈ st.temp, s ∈ st'.result → s ∈ st.result := by
  intro ds
  induction ds with
  | nil =>
      intro st st' h s hs hr
      injection h with h
      rw [← h] at hr
      exact hr
  | cons x rest ih =>
      intro st st' h s hs hr
      unfold visitListF at h
      cases hx : f x st with
      | error e => rw [hx] at h; exact absurd h (by simp)
      | ok st₁ =>
          rw [hx] at h
          have htemp := hftemp x st st₁ hx
          exact hf x st st₁ hx s hs (ih st₁ st' h s (htemp ▸ hs) hr)

theorem visit_ok_not_pushed (g : Graph) :
    ∀ (fuel : Nat) (x : Sys) (st st' : DfsSt), visit g fuel x st = .ok st' →
      ∀ s ∈ st.temp, s ∈ st'.result → s ∈ st.result := by
  intro fuel
  induction fuel with
  | zero =>
      intro x st st' h s hs hr
      unfold visit at h
      by_cases h1 : x ∈ st.visited
      · rw [if_pos h1] at h; injection h with h; rw [← h] at hr; exact hr
      · rw [if_neg h1] at h
        by_cases h2 : x ∈ st.temp
        · rw [if_pos h2] at h; exact absurd h (by simp)
        · rw [if_neg h2] at h; exact absurd h (by simp)
  | succ f ih =>
      intro x st st' h s hs hr
      unfold visit at h
      by_cases h1 : x ∈ st.visited
      · rw [if_pos h1] at h; injection h with h; rw [← h] at hr; exact hr
      · rw [if_neg h1] at h
        by_cases h2 : x ∈ st.temp
        · rw [if_pos h2] at h; exact absurd h (by simp)
        · rw [if_neg h2] at h
          cases hm : visitListF (visit g f) (graphGet g x) { st with temp := x :: st.temp } with
          | error e => rw [hm] at h; exact absurd h (by simp)
          | ok st₁ =>
              rw [hm] at h
              injection h with h
              rw [← h] at hr
              simp only [List.mem_append, List.mem_singleton] at hr
              rcases hr with hr | hr
              · exact visitListF_ok_not_pushed (visit_ok_temp g f) ih _ _ _ hm s
                  (by simp [hs]) hr
              · subst hr
                exact absurd hs h2

theorem visitListF_ok_good {g : Graph} {f : Sys → DfsSt → Except SortErr DfsSt}
    (hf : ∀ d st st', f d st = .ok st' → GoodSt g st → GoodSt g st') :
    ∀ (ds : List Sys) (st st' : DfsSt), visitListF f ds st = .ok st' →
      GoodSt g st → GoodSt g st' := by
  intro ds
  induction ds with
  | nil =>
      intro st st' h hg
      injection h with h
      rw [← h]
      exact hg
  | cons x rest ih =>
      intro st st' h hg
      unfold visitListF at h
      cases hx : f x st with
      | error e => rw [hx] at h; exact absurd h (by simp)
      | ok st₁ => rw [hx] at h; exact ih st₁ st' h (hf x st st₁ hx hg)

theorem visit_ok_good (g : Graph) :
    ∀ (fuel : Nat) (s : Sys) (st st' : DfsSt), visit g fuel s st = .ok st' →
      GoodSt g st → GoodSt g st' := by
  intro fuel
  induction fuel with
  | zero =>
      intro s st st' h hg
      unfold visit at h
      by_cases h1 : s ∈ st.visited
      · rw [if_pos h1] at h; injection h with h; rw [← h]; exact hg
      · rw [if_neg h1] at h
        by_cases h2 : s ∈ st.temp
        · rw [if_pos h2] at h; exact absurd h (by simp)
        · rw [if_neg h2] at h; exact absurd h (by simp)
  | succ f ih =>
      intro s st st' h hg
      unfold visit at h
      by_cases h1 : s ∈ st.visited
      · rw [if_pos h1] at h; injection h with h; rw [← h]; exact hg
      · rw [if_neg h1] at h
        by_cases h2 : s ∈ st.temp
        · rw [if_pos h2] at h; exact absurd h (by simp)
        · rw [if_neg h2] at h
          cases hm : visitListF (visit g f) (graphGet g s) { st with temp := s :: st.temp } with
          | error e => rw [hm] at h; exact absurd h (by simp)
          | ok st₁ =>
              rw [hm] at h
              injection h with h
              have hg₁ : GoodSt g st₁ := visitListF_ok_good ih _ _ _ hm hg
              obtain ⟨hvr₁, hnd₁, hord₁⟩ := hg₁
              have hsnot : s ∉ st₁.result := by
                intro hmem
                have := visitListF_ok_not_pushed (visit_ok_temp g f) (visit_ok_not_pushed g f)
                  _ _ _ hm s (by simp) hmem
                rw [← hg.1] at this
                exact h1 this
              have hdeps : ∀ d ∈ graphGet g s, d ∈ st₁.result := by
                intro d hd
                rw [← hvr₁]
                exact visitListF_ok_all_visited g f _ _ _ hm d hd
              rw [← h]
              refine ⟨by rw [hvr₁], ?_, ?_⟩
              · simp only [List.nodup_append, List.nodup_singleton]
                exact ⟨hnd₁, by simp, by
                  intro a ha hb
                  simp only [List.mem_singleton] at hb
                  subst hb
                  exact hsnot ha⟩
              · intro x hx d hd
                simp only [List.mem_append, List.mem_singleton] at hx
                rcases hx with hx | hx
                · obtain ⟨hdm, hidx⟩ := hord₁ x hx d hd
                  refine ⟨List.mem_append_left _ hdm, ?_⟩
                  rw [List.indexOf_append_of_mem hdm, List.indexOf_append_of_mem hx]
                  exact hidx
                · subst hx
                  have hdm := hdeps d hd
                  refine ⟨List.mem_append_left _ hdm, ?_⟩
                  rw [List.indexOf_append_of_mem hdm, indexOf_append_self hsnot]
                  exact List.indexOf_lt_length.mpr hdm

/-- The recursion-depth fuel cannot run out while the path is shorter
than the node universe: every nested call lengthens the duplicate-free
path by one. -/
theorem visit_no_fuelOut (g : Graph) (nodes : List Sys)
    (hgn : ∀ x, ∀ d ∈ graphGet g x, d ∈ nodes) :
    ∀ (fuel : Nat) (s : Sys) (st : DfsSt),
      st.temp.Nodup → (∀ t ∈ st.temp, t ∈ nodes) → s ∈ nodes →
      nodes.length + 1 ≤ fuel + st.temp.length →
      visit g fuel s st ≠ .error .fuelOut := by
  intro fuel
  induction fuel with
  | zero =>
      intro s st hnd hsub hs harith
      have hle : st.temp.length ≤ nodes.length :=
        (List.subperm_of_subset hnd fun t ht => hsub t ht).length_le
      omega
  | succ f ih =>
      intro s st hnd hsub hs harith
      unfold visit
      by_cases h1 : s ∈ st.visited
      · rw [if_pos h1]; simp
      · rw [if_neg h1]
        by_cases h2 : s ∈ st.temp
        · rw [if_pos h2]; simp
        · rw [if_neg h2]
          have hlist : ∀ (ds : List Sys), (∀ d ∈ ds, d ∈ nodes) →
              ∀ (st₂ : DfsSt), st₂.temp = s :: st.temp →
              visitListF (visit g f) ds st₂ = .error .fuelOut → False := by
            intro ds
            induction ds with
            | nil => intro _ st₂ _ h; simp [visitListF] at h
            | cons d rest ihd =>
                intro hdn st₂ htemp h
                unfold visitListF at h
                cases hd : visit g f d st₂ with
                | error e =>
                    rw [hd] at h
                    injection h with he
                    subst he
                    refine ih d st₂ ?_ ?_ (hdn d (by simp)) ?_ hd
                    · rw [htemp]
                      exact List.nodup_cons.mpr ⟨h2, hnd⟩
                    · rw [htemp]
                      intro t ht
                      rcases List.mem_cons.mp ht with ht | ht
                      · subst ht; exact hs
                      · exact hsub t ht
                    · rw [htemp]
                      simp only [List.length_cons]
                      omega
                | ok st₁ =>
                    rw [hd] at h
                    exact ihd (fun d' hd' => hdn d' (List.mem_cons_of_mem _ hd')) st₁
                      (by rw [visit_ok_temp g f _ _ _ hd, htemp]) h
          cases hm : visitListF (visit g f) (graphGet g s)
              { st with temp := s :: st.temp } with
          | error e =>
              intro hcontra
              injection hcontra with he
              subst he
              exact hlist _ (fun d hd => hgn s d hd) _ rfl hm
          | ok st₁ => simp

theorem visitMany_no_fuelOut (g : Graph) (nodes : List Sys)
    (hgn : ∀ x, ∀ d ∈ graphGet g x, d ∈ nodes) (fuel : Nat)
    (harith : nodes.length + 1 ≤ fuel) :
    ∀ (ds : List Sys), (∀ d ∈ ds, d ∈ nodes) → ∀ (st : DfsSt), st.temp = [] →
      visitListF (visit g fuel) ds st ≠ .error .fuelOut := by
  intro ds
  induction ds with
  | nil => intro _ st _; simp [visitListF]
  | cons d rest ih =>
      intro hdn st htemp h
      unfold visitListF at h
      cases hd : visit g fuel d st with
      | error e =>
          rw [hd] at h
          injection h with he
          subst he
          refine visit_no_fuelOut g nodes hgn fuel d st ?_ ?_ (hdn d (by simp)) ?_ hd
          · rw [htemp]; exact List.nodup_nil
          · rw [htemp]; intro t ht; simp at ht
          · rw [htemp]; simp; omega
      | ok st₁ =>
          rw [hd] at h
          exact ih (fun d' hd' => hdn d' (List.mem_cons_of_mem _ hd')) st₁
            (by rw [visit_ok_temp g fuel _ _ _ hd, htemp]) h

/-- The fuel bound the sort supplies never runs out. -/
theorem runDfs_not_fuelOut (g : Graph) (systems : List Sys) :
    runDfs g systems ≠ .error .fuelOut := by
  unfold runDfs
  have hgn : ∀ x, ∀ d ∈ graphGet g x, d ∈ nodeUniverse g systems := by
    intro x d hd
    unfold graphGet at hd
    cases hx : aget g x with
    | none => rw [hx] at hd; simp at hd
    | some deps =>
        rw [hx] at hd
        simp only [Option.getD_some] at hd
        unfold nodeUniverse
        rw [List.mem_dedup]
        refine List.mem_append_right _ ?_
        rw [List.mem_flatMap]
        exact ⟨(x, deps), aget_mem hx, hd⟩
  have hsys : ∀ d ∈ systems, d ∈ nodeUniverse g systems := by
    intro d hd
    unfold nodeUniverse
    rw [List.mem_dedup]
    exact List.mem_append_left _ hd
  have := visitMany_no_fuelOut g (nodeUniverse g systems) hgn (fuelBound g systems)
    (by unfold fuelBound; omega) systems hsys ⟨[], [], []⟩ rfl
  unfold visitMany at this
  intro hcontra
  unfold visitMany at hcontra
  cases hm : visitListF (visit g (fuelBound g systems)) systems ⟨[], [], []⟩ with
  | error e =>
      rw [hm] at hcontra
      injection hcontra with he
      subst he
      exact this hm
  | ok st => rw [hm] at hcontra; exact absurd hcontra (by simp)

/-- Members of the recursion path reach the head through dependency
edges. -/
theorem chain_mem_transGen (g : Graph) :
    ∀ (l : List Sys) (a : Sys),
      List.Chain' (fun x y => x ∈ graphGet g y) (a :: l) →
      ∀ b ∈ l, Relation.TransGen (edgeRel g) b a := by
  intro l
  induction l with
  | nil => intro a _ b hb; simp at hb
  | cons t rest ih =>
      intro a hchain b hb
      obtain ⟨hat, hchain'⟩ := List.chain'_cons.mp hchain
      rcases List.mem_cons.mp hb with hb | hb
      · subst hb
        exact Relation.TransGen.single hat
      · exact (ih t hchain' b hb).trans (Relation.TransGen.single hat)

/-- A circular-dependency error names a system lying on a true cycle of
the resolved constraint graph. -/
theorem visit_circular_cycle (g : Graph) :
    ∀ (fuel : Nat) (s : Sys) (st : DfsSt) (c : Sys),
      List.Chain' (fun x y => x ∈ graphGet g y) (s :: st.temp) →
      visit g fuel s st = .error (.circular c) →
      Relation.TransGen (edgeRel g) c c := by
  intro fuel
  induction fuel with
  | zero =>
      intro s st c hchain h
      unfold visit at h
      by_cases h1 : s ∈ st.visited
      · rw [if_pos h1] at h; exact absurd h (by simp)
      · rw [if_neg h1] at h
        by_cases h2 : s ∈ st.temp
        · rw [if_pos h2] at h
          injection h with he
          injection he with hc
          subst hc
          exact chain_mem_transGen g st.temp s hchain s h2
        · rw [if_neg h2] at h
          exact absurd h (by simp)
  | succ f ih =>
      intro s st c hchain h
      unfold visit at h
      by_cases h1 : s ∈ st.visited
      · rw [if_pos h1] at h; exact absurd h (by simp)
      · rw [if_neg h1] at h
        by_cases h2 : s ∈ st.temp
        · rw [if_pos h2] at h
          injection h with he
          injection he with hc
          subst hc
          exact chain_mem_transGen g st.temp s hchain s h2
        · rw [if_neg h2] at h
          have hlist : ∀ (ds : List Sys), (∀ d ∈ ds, d ∈ graphGet g s) →
              ∀ (st₂ : DfsSt), st₂.temp = s :: st.temp →
              visitListF (visit g f) ds st₂ = .error (.circular c) →
              Relation.TransGen (edgeRel g) c c := by
            intro ds
            induction ds with
            | nil => intro _ st₂ _ hcon; simp [visitListF] at hcon
            | cons d rest ihd =>
                intro hdn st₂ htemp hcon
                unfold visitListF at hcon
                cases hd : visit g f d st₂ with
                | error e =>
                    rw [hd] at hcon
                    injection hcon with he
                    subst he
                    refine ih d st₂ c ?_ hd
                    rw [htemp]
                    exact List.chain'_cons.mpr ⟨hdn d (by simp), hchain⟩
                | ok st₁ =>
                    rw [hd] at hcon
                    exact ihd (fun d' hd' => hdn d' (List.mem_cons_of_mem _ hd')) st₁
                      (by rw [visit_ok_temp g f _ _ _ hd, htemp]) hcon
          cases hm : visitListF (visit g f) (graphGet g s)
              { st with temp := s :: st.temp } with
          | error e =>
              rw [hm] at h
              injection h with he
              subst he
              exact hlist _ (fun d hd => hd) _ rfl hm
          | ok st₁ =>
              rw [hm] at h
              exact absurd h (by simp)

theorem visitMany_circular_cycle (g : Graph) (fuel : Nat) :
    ∀ (ds : List Sys) (st : DfsSt) (c : Sys), st.temp = [] →
      visitListF (visit g fuel) ds st = .error (.circular c) →
      Relation.TransGen (edgeRel g) c c := by
  intro ds
  induction ds with
  | nil => intro st c _ h; simp [visitListF] at h
  | cons d rest ih =>
      intro st c htemp h
      unfold visitListF at h
      cases hd : visit g fuel d st with
      | error e =>
          rw [hd] at h
          injection h with he
          subst he
          refine visit_circular_cycle g fuel d st c ?_ hd
          rw [htemp]
          simp
      | ok st₁ =>
          rw [hd] at h
          exact ih st₁ c (by rw [visit_ok_temp g fuel _ _ _ hd, htemp]) h

/-! ### Graph construction lemmas -/

theorem ahas_append_single {κ ν : Type} [DecidableEq κ] {l : List (κ × ν)} {k x : κ}
    {v : ν} : ahas (l ++ [(k, v)]) x = true ↔ ahas l x = true ∨ x = k := by
  unfold ahas
  cases h : aget l x with
  | some w => simp [aget_append_left _ h]
  | none =>
      rw [aget_append_of_none _ h]
      simp only [aget, Option.isSome_none, Bool.false_eq_true, false_or]
      by_cases hk : k = x
      · subst hk; simp
      · simp [hk, Ne.symm hk]

theorem initGraph_values {systems : List Sys} :
    ∀ {x : Sys} {deps : List Sys}, aget (initGraph systems) x = some deps → deps = [] := by
  suffices key : ∀ (l : List Sys) (acc : Graph), (∀ p ∈ acc, p.2 = ([] : List Sys)) →
      ∀ p ∈ l.foldl (fun gg s => if ahas gg s then gg else gg ++ [(s, [])]) acc,
        p.2 = ([] : List Sys) by
    intro x deps h
    exact key systems [] (by simp) (x, deps) (aget_mem h)
  intro l
  induction l with
  | nil => intro acc hacc p hp; exact hacc p hp
  | cons s rest ih =>
      intro acc hacc p hp
      refine ih _ ?_ p hp
      intro q hq
      by_cases hhas : ahas acc s
      · simp only [if_pos hhas] at hq
        exact hacc q hq
      · simp only [if_neg hhas] at hq
        rcases List.mem_append.mp hq with h | h
        · exact hacc q h
        · simp at h; rw [h]

theorem initGraph_keys {systems : List Sys} {x : Sys} :
    ahas (initGraph systems) x = true ↔ x ∈ systems := by
  suffices key : ∀ (l : List Sys) (acc : Graph),
      ahas (l.foldl (fun gg s => if ahas gg s then gg else gg ++ [(s, [])]) acc) x = true ↔
        ahas acc x = true ∨ x ∈ l by
    have h := key systems []
    unfold initGraph
    rw [h]
    simp [ahas, aget]
  intro l
  induction l with
  | nil => intro acc; simp
  | cons s rest ih =>
      intro acc
      rw [List.foldl_cons, ih]
      by_cases hhas : ahas acc s
      · rw [if_pos hhas]
        constructor
        · rintro (h | h)
          · exact Or.inl h
          · exact Or.inr (List.mem_cons_of_mem _ h)
        · rintro (h | h)
          · exact Or.inl h
          · rcases List.mem_cons.mp h with h | h
            · subst h; exact Or.inl hhas
            · exact Or.inr h
      · rw [if_neg hhas]
        rw [ahas_append_single]
        constructor
        · rintro ((h | h) | h)
          · exact Or.inl h
          · subst h; exact Or.inr (by simp)
          · exact Or.inr (List.mem_cons_of_mem _ h)
        · rintro (h | h)
          · exact Or.inl (Or.inl h)
          · rcases List.mem_cons.mp h with h | h
            · subst h; exact Or.inl (Or.inr rfl)
            · exact Or.inr h

theorem graphAdd_of_aget_none {g : Graph} {k d : Sys} (h : aget g k = none) :
    graphAdd g k d = g := by
  unfold graphAdd; rw [h]

theorem graphAdd_of_mem {g : Graph} {k d : Sys} {deps : List Sys}
    (h : aget g k = some deps) (hd : d ∈ deps) : graphAdd g k d = g := by
  unfold graphAdd; simp only [h, if_pos hd]

theorem graphAdd_of_not_mem {g : Graph} {k d : Sys} {deps : List Sys}
    (h : aget g k = some deps) (hd : d ∉ deps) :
    graphAdd g k d = aset g k (deps ++ [d]) := by
  unfold graphAdd; simp only [h, if_neg hd]

theorem graphAdd_keys {g : Graph} {k d x : Sys} :
    ahas (graphAdd g k d) x = ahas g x := by
  cases hk : aget g k with
  | none => rw [graphAdd_of_aget_none hk]
  | some deps =>
      by_cases hd : d ∈ deps
      · rw [graphAdd_of_mem hk hd]
      · rw [graphAdd_of_not_mem hk hd]
        unfold ahas
        by_cases hx : x = k
        · subst hx; rw [aget_aset_self, hk]; rfl
        · rw [aget_aset_ne _ _ hx]

theorem mem_graphAdd_self {g : Graph} {k d : Sys} (h : ahas g k = true) :
    d ∈ graphGet (graphAdd g k d) k := by
  cases hk : aget g k with
  | none => unfold ahas at h; rw [hk] at h; simp at h
  | some deps =>
      by_cases hd : d ∈ deps
      · rw [graphAdd_of_mem hk hd]
        unfold graphGet
        rw [hk]
        simpa using hd
      · rw [graphAdd_of_not_mem hk hd]
        unfold graphGet
        rw [aget_aset_self]
        simp

theorem mem_graphAdd_mono {g : Graph} {k d x y : Sys} (h : x ∈ graphGet g y) :
    x ∈ graphGet (graphAdd g k d) y := by
  cases hk : aget g k with
  | none => rw [graphAdd_of_aget_none hk]; exact h
  | some deps =>
      by_cases hd : d ∈ deps
      · rw [graphAdd_of_mem hk hd]; exact h
      · rw [graphAdd_of_not_mem hk hd]
        unfold graphGet at h ⊢
        by_cases hy : y = k
        · subst hy
          rw [aget_aset_self]
          rw [hk] at h
          simp only [Option.getD_some] at h ⊢
          exact List.mem_append_left _ h
        · rw [aget_aset_ne _ _ hy]
          exact h

theorem mem_graphAdd_inv {g : Graph} {k d x y : Sys}
    (h : x ∈ graphGet (graphAdd g k d) y) : x ∈ graphGet g y ∨ (y = k ∧ x = d) := by
  cases hk : aget g k with
  | none => rw [graphAdd_of_aget_none hk] at h; exact Or.inl h
  | some deps =>
      by_cases hd : d ∈ deps
      · rw [graphAdd_of_mem hk hd] at h; exact Or.inl h
      · rw [graphAdd_of_not_mem hk hd] at h
        unfold graphGet at h
        by_cases hy : y = k
        · subst hy
          rw [aget_aset_self] at h
          simp only [Option.getD_some] at h
          rcases List.mem_append.mp h with h | h
          · exact Or.inl (by unfold graphGet; rw [hk]; simpa using h)
          · simp at h; exact Or.inr ⟨rfl, h⟩
        · rw [aget_aset_ne _ _ hy] at h
          exact Or.inl h

theorem afterStep_none {systems : List Sys} {s : Sys} {g : Graph} {r : SRef}
    (h : resolveRef systems r = none) : afterStep systems s g r = g := by
  unfold afterStep; rw [h]

theorem afterStep_some {systems : List Sys} {s : Sys} {g : Graph} {r : SRef} {d : Sys}
    (h : resolveRef systems r = some d) : afterStep systems s g r = graphAdd g s d := by
  unfold afterStep; simp only [h]

theorem afterStep_keys {systems : List Sys} {s : Sys} {g : Graph} {r : SRef} {x : Sys} :
    ahas (afterStep systems s g r) x = ahas g x := by
  cases h : resolveRef systems r with
  | none => rw [afterStep_none h]
  | some d => rw [afterStep_some h]; exact graphAdd_keys

theorem afterFold_keys (systems : List Sys) (s x : Sys) :
    ∀ (rs : List SRef) (g : Graph),
      ahas (rs.foldl (afterStep systems s) g) x = ahas g x := by
  intro rs
  induction rs with
  | nil => intro g; rfl
  | cons r rest ih =>
      intro g
      rw [List.foldl_cons, ih]
      exact afterStep_keys

theorem afterFold_mono (systems : List Sys) (s : Sys) {x y : Sys} :
    ∀ (rs : List SRef) (g : Graph), x ∈ graphGet g y →
      x ∈ graphGet (rs.foldl (afterStep systems s) g) y := by
  intro rs
  induction rs with
  | nil => intro g h; exact h
  | cons r rest ih =>
      intro g h
      rw [List.foldl_cons]
      refine ih _ ?_
      cases hr : resolveRef systems r with
      | none => rw [afterStep_none hr]; exact h
      | some d => rw [afterStep_some hr]; exact mem_graphAdd_mono h

theorem afterFold_intro (systems : List Sys) {s d : Sys} :
    ∀ (rs : List SRef) (g : Graph), ahas g s = true →
      ∀ r ∈ rs, resolveRef systems r = some d →
      d ∈ graphGet (rs.foldl (afterStep systems s) g) s := by
  intro rs
  induction rs with
  | nil => intro g _ r hr _; simp at hr
  | cons r₀ rest ih =>
      intro g hhas r hr hres
      rw [List.foldl_cons]
      rcases List.mem_cons.mp hr with hr | hr
      · subst hr
        refine afterFold_mono systems s rest _ ?_
        rw [afterStep_some hres]
        exact mem_graphAdd_self hhas
      · refine ih _ ?_ r hr hres
        rw [afterStep_keys]
        exact hhas

theorem afterFold_inv (systems : List Sys) {s x y : Sys} :
    ∀ (rs : List SRef) (g : Graph),
      x ∈ graphGet (rs.foldl (afterStep systems s) g) y →
      x ∈ graphGet g y ∨ (y = s ∧ ∃ r ∈ rs, resolveRef systems r = some x) := by
  intro rs
  induction rs with
  | nil => intro g h; exact Or.inl h
  | cons r₀ rest ih =>
      intro g h
      rw [List.foldl_cons] at h
      rcases ih _ h with h | ⟨hy, r, hr, hres⟩
      · cases hr₀ : resolveRef systems r₀ with
        | none => rw [afterStep_none hr₀] at h; exact Or.inl h
        | some d₀ =>
            rw [afterStep_some hr₀] at h
            rcases mem_graphAdd_inv h with h | ⟨hy, hx⟩
            · exact Or.inl h
            · exact Or.inr ⟨hy, r₀, by simp, by rw [hr₀, hx]⟩
      · exact Or.inr ⟨hy, r, List.mem_cons_of_mem _ hr, hres⟩

theorem beforeStep_none {systems : List Sys} {s : Sys} {g : Graph} {r : SRef}
    (h : resolveRef systems r = none) : beforeStep systems s g r = .ok g := by
  unfold beforeStep; rw [h]; rfl

theorem beforeStep_some_has {systems : List Sys} {s : Sys} {g : Graph} {r : SRef}
    {d : Sys} (h : resolveRef systems r = some d) (hd : ahas g d = true) :
    beforeStep systems s g r = .ok (graphAdd g d s) := by
  unfold beforeStep; simp only [h, if_pos hd]; rfl

theorem beforeStep_some_not_has {systems : List Sys} {s : Sys} {g : Graph} {r : SRef}
    {d : Sys} (h : resolveRef systems r = some d) (hd : ¬ ahas g d = true) :
    beforeStep systems s g r = .error .typeError := by
  unfold beforeStep; simp only [h, if_neg hd]; rfl

theorem beforeStep_ok {systems : List Sys} {s : Sys} {g g₁ : Graph} {r : SRef}
    (h : beforeStep systems s g r = .ok g₁) :
    (∃ d, resolveRef systems r = some d ∧ ahas g d = true ∧ g₁ = graphAdd g d s) ∨
      (resolveRef systems r = none ∧ g₁ = g) := by
  cases hres : resolveRef systems r with
  | none =>
      rw [beforeStep_none hres] at h
      injection h with h
      exact Or.inr ⟨rfl, h.symm⟩
  | some d =>
      by_cases hd : ahas g d = true
      · rw [beforeStep_some_has hres hd] at h
        injection h with h
        exact Or.inl ⟨d, rfl, hd, h.symm⟩
      · rw [beforeStep_some_not_has hres hd] at h
        exact absurd h (by simp)

theorem beforeStep_keys {systems : List Sys} {s : Sys} {g g₁ : Graph} {r : SRef}
    {x : Sys} (h : beforeStep systems s g r = .ok g₁) : ahas g₁ x = ahas g x := by
  rcases beforeStep_ok h with ⟨d, _, _, hg⟩ | ⟨_, hg⟩
  · rw [hg]; exact graphAdd_keys
  · rw [hg]

theorem beforeFold_keys (systems : List Sys) (s x : Sys) :
    ∀ (rs : List SRef) (g g₂ : Graph),
      rs.foldlM (beforeStep systems s) g = .ok g₂ → ahas g₂ x = ahas g x := by
  intro rs
  induction rs with
  | nil =>
      intro g g₂ h
      have h' : Except.ok g = Except.ok g₂ := h
      injection h' with h'
      rw [← h']
  | cons r rest ih =>
      intro g g₂ h
      rw [List.foldlM_cons] at h
      obtain ⟨g₁, hstep, hrest⟩ := exceptBind_ok h
      rw [ih _ _ hrest]
      exact beforeStep_keys hstep

theorem beforeFold_mono (systems : List Sys) (s : Sys) {x y : Sys} :
    ∀ (rs : List SRef) (g g₂ : Graph),
      rs.foldlM (beforeStep systems s) g = .ok g₂ →
      x ∈ graphGet g y → x ∈ graphGet g₂ y := by
  intro rs
  induction rs with
  | nil =>
      intro g g₂ h hx
      have h' : Except.ok g = Except.ok g₂ := h
      injection h' with h'
      rw [← h']
      exact hx
  | cons r rest ih =>
      intro g g₂ h hx
      rw [List.foldlM_cons] at h
      obtain ⟨g₁, hstep, hrest⟩ := exceptBind_ok h
      refine ih _ _ hrest ?_
      rcases beforeStep_ok hstep with ⟨d, _, _, hg⟩ | ⟨_, hg⟩
      · rw [hg]; exact mem_graphAdd_mono hx
      · rw [hg]; exact hx

theorem beforeFold_intro (systems : List Sys) {s d : Sys} :
    ∀ (rs : List SRef) (g g₂ : Graph),
      rs.foldlM (beforeStep systems s) g = .ok g₂ →
      ∀ r ∈ rs, resolveRef systems r = some d →
      s ∈ graphGet g₂ d := by
  intro rs
  induction rs with
  | nil => intro g g₂ _ r hr _; simp at hr
  | cons r₀ rest ih =>
      intro g g₂ h r hr hres
      rw [List.foldlM_cons] at h
      obtain ⟨g₁, hstep, hrest⟩ := exceptBind_ok h
      rcases List.mem_cons.mp hr with hr | hr
      · subst hr
        rcases beforeStep_ok hstep with ⟨d', hres', hd', hg⟩ | ⟨hnone, _⟩
        · rw [hres] at hres'
          injection hres' with hdd
          subst hdd
          refine beforeFold_mono systems s rest _ _ hrest ?_
          rw [hg]
          exact mem_graphAdd_self hd'
        · rw [hres] at hnone
          exact absurd hnone (by simp)
      · exact ih _ _ hrest r hr hres

theorem beforeFold_inv (systems : List Sys) {s x y : Sys} :
    ∀ (rs : List SRef) (g g₂ : Graph),
      rs.foldlM (beforeStep systems s) g = .ok g₂ →
      x ∈ graphGet g₂ y →
      x ∈ graphGet g y ∨ (x = s ∧ ∃ r ∈ rs, resolveRef systems r = some y) := by
  intro rs
  induction rs with
  | nil =>
      intro g g₂ h hx
      have h' : Except.ok g = Except.ok g₂ := h
      injection h' with h'
      rw [← h'] at hx
      exact Or.inl hx
  | cons r₀ rest ih =>
      intro g g₂ h hx
      rw [List.foldlM_cons] at h
      obtain ⟨g₁, hstep, hrest⟩ := exceptBind_ok h
      rcases ih _ _ hrest hx with hx | ⟨hxs, r, hr, hres⟩
      · rcases beforeStep_ok hstep with ⟨d, hres₀, _, hg⟩ | ⟨_, hg⟩
        · rw [hg] at hx
          rcases mem_graphAdd_inv hx with hx | ⟨hy, hxs⟩
          · exact Or.inl hx
          · exact Or.inr ⟨hxs, r₀, by simp, by rw [hres₀, hy]⟩
        · rw [hg] at hx; exact Or.inl hx
      · exact Or.inr ⟨hxs, r, List.mem_cons_of_mem _ hr, hres⟩

theorem beforeFold_ok_requires (systems : List Sys) (s : Sys) :
    ∀ (rs : List SRef) (g g₂ : Graph),
      rs.foldlM (beforeStep systems s) g = .ok g₂ →
      ∀ r ∈ rs, ∀ d, resolveRef systems r = some d → ahas g d = true := by
  intro rs
  induction rs with
  | nil => intro g g₂ _ r hr; simp at hr
  | cons r₀ rest ih =>
      intro g g₂ h r hr d hres
      rw [List.foldlM_cons] at h
      obtain ⟨g₁, hstep, hrest⟩ := exceptBind_ok h
      rcases List.mem_cons.mp hr with hr | hr
      · subst hr
        rcases beforeStep_ok hstep with ⟨d', hres', hd', _⟩ | ⟨hnone, _⟩
        · rw [hres] at hres'
          injection hres' with hdd
          subst hdd
          exact hd'
        · rw [hres] at hnone
          exact absurd hnone (by simp)
      · rw [← beforeStep_keys hstep]
        exact ih _ _ hrest r hr d hres

theorem beforeFold_ok (systems : List Sys) (s : Sys) :
    ∀ (rs : List SRef) (g : Graph),
      (∀ r ∈ rs, ∀ d, resolveRef systems r = some d → ahas g d = true) →
      ∃ g₂, rs.foldlM (beforeStep systems s) g = .ok g₂ := by
  intro rs
  induction rs with
  | nil => intro g _; exact ⟨g, rfl⟩
  | cons r₀ rest ih =>
      intro g hres
      rw [List.foldlM_cons]
      cases hr₀ : resolveRef systems r₀ with
      | none =>
          obtain ⟨g₂, hg₂⟩ := ih g (fun r hr d hd => hres r (List.mem_cons_of_mem _ hr) d hd)
          refine ⟨g₂, ?_⟩
          rw [beforeStep_none hr₀]
          exact hg₂
      | some d =>
          have hd : ahas g d = true := hres r₀ (by simp) d hr₀
          obtain ⟨g₂, hg₂⟩ := ih (graphAdd g d s) (by
            intro r hr d' hd'
            rw [graphAdd_keys]
            exact hres r (List.mem_cons_of_mem _ hr) d' hd')
          refine ⟨g₂, ?_⟩
          rw [beforeStep_some_has hr₀ hd]
          exact hg₂

theorem graphGet_key {g : Graph} {a b : Sys} (h : b ∈ graphGet g a) : ahas g a = true := by
  unfold graphGet at h
  cases hk : aget g a with
  | none => rw [hk] at h; simp at h
  | some deps => unfold ahas; rw [hk]; rfl

theorem graphGet_initGraph (systems : List Sys) (a : Sys) :
    graphGet (initGraph systems) a = [] := by
  unfold graphGet
  cases hk : aget (initGraph systems) a with
  | none => rfl
  | some deps => rw [initGraph_values hk]; rfl

theorem sysStep_keys {systems : List Sys} {g g₂ : Graph} {s x : Sys}
    (h : sysStep systems g s = .ok g₂) : ahas g₂ x = ahas g x := by
  unfold sysStep addBeforeEdges at h
  exact (beforeFold_keys systems s x _ _ _ h).trans (afterFold_keys systems s x _ _)

theorem sysStep_mono {systems : List Sys} {g g₂ : Graph} {s x y : Sys}
    (h : sysStep systems g s = .ok g₂) (hx : x ∈ graphGet g y) : x ∈ graphGet g₂ y := by
  unfold sysStep addBeforeEdges at h
  exact beforeFold_mono systems s _ _ _ h (afterFold_mono systems s _ _ hx)

theorem sysStep_inv {systems : List Sys} {g g₂ : Graph} {s x y : Sys}
    (h : sysStep systems g s = .ok g₂) (hx : x ∈ graphGet g₂ y) :
    x ∈ graphGet g y ∨ (y = s ∧ ∃ r ∈ s.after, resolveRef systems r = some x) ∨
      (x = s ∧ ∃ r ∈ s.before, resolveRef systems r = some y) := by
  unfold sysStep addBeforeEdges at h
  rcases beforeFold_inv systems _ _ _ h hx with hx | ⟨hxs, r, hr, hres⟩
  · rcases afterFold_inv systems _ _ hx with hx | hafter
    · exact Or.inl hx
    · exact Or.inr (Or.inl hafter)
  · exact Or.inr (Or.inr ⟨hxs, r, hr, hres⟩)

theorem sysFold_keys (systems : List Sys) (x : Sys) :
    ∀ (l : List Sys) (acc g : Graph),
      l.foldlM (sysStep systems) acc = .ok g → ahas g x = ahas acc x := by
  intro l
  induction l with
  | nil =>
      intro acc g h
      have h' : Except.ok acc = Except.ok g := h
      injection h' with h'
      rw [← h']
  | cons s rest ih =>
      intro acc g h
      rw [List.foldlM_cons] at h
      obtain ⟨g₁, hstep, hrest⟩ := exceptBind_ok h
      rw [ih _ _ hrest]
      exact sysStep_keys hstep

theorem sysFold_mono (systems : List Sys) {x y : Sys} :
    ∀ (l : List Sys) (acc g : Graph),
      l.foldlM (sysStep systems) acc = .ok g →
      x ∈ graphGet acc y → x ∈ graphGet g y := by
  intro l
  induction l with
  | nil =>
      intro acc g h hx
      have h' : Except.ok acc = Except.ok g := h
      injection h' with h'
      rw [← h']
      exact hx
  | cons s rest ih =>
      intro acc g h hx
      rw [List.foldlM_cons] at h
      obtain ⟨g₁, hstep, hrest⟩ := exceptBind_ok h
      exact ih _ _ hrest (sysStep_mono hstep hx)

theorem sysFold_edge_inv (systems : List Sys) {x y : Sys} :
    ∀ (l : List Sys) (acc g : Graph),
      l.foldlM (sysStep systems) acc = .ok g →
      x ∈ graphGet g y →
      x ∈ graphGet acc y ∨ ∃ s ∈ l,
        (y = s ∧ ∃ r ∈ s.after, resolveRef systems r = some x) ∨
        (x = s ∧ ∃ r ∈ s.before, resolveRef systems r = some y) := by
  intro l
  induction l with
  | nil =>
      intro acc g h hx
      have h' : Except.ok acc = Except.ok g := h
      injection h' with h'
      rw [← h'] at hx
      exact Or.inl hx
  | cons s rest ih =>
      intro acc g h hx
      rw [List.foldlM_cons] at h
      obtain ⟨g₁, hstep, hrest⟩ := exceptBind_ok h
      rcases ih _ _ hrest hx with hx | ⟨s', hs', hcase⟩
      · rcases sysStep_inv hstep hx with hx | hc | hc
        · exact Or.inl hx
        · exact Or.inr ⟨s, by simp, Or.inl hc⟩
        · exact Or.inr ⟨s, by simp, Or.inr hc⟩
      · exact Or.inr ⟨s', List.mem_cons_of_mem _ hs', hcase⟩

theorem sysFold_ok (systems : List Sys)
    (hres : ∀ s ∈ systems, ∀ r ∈ s.before, ∀ d,
      resolveRef systems r = some d → d ∈ systems) :
    ∀ (l : List Sys), (∀ s ∈ l, s ∈ systems) →
      ∀ (acc : Graph), (∀ x, ahas acc x = true ↔ x ∈ systems) →
      ∃ g, l.foldlM (sysStep systems) acc = .ok g := by
  intro l
  induction l with
  | nil => intro _ acc _; exact ⟨acc, rfl⟩
  | cons s rest ih =>
      intro hl acc hkeys
      have hstep : ∃ g₁, sysStep systems acc s = .ok g₁ := by
        unfold sysStep addBeforeEdges
        refine beforeFold_ok systems s _ _ ?_
        intro r hr d hd
        exact (afterFold_keys systems s d _ _).trans
          ((hkeys d).mpr (hres s (hl s (by simp)) r hr d hd))
      obtain ⟨g₁, hg₁⟩ := hstep
      obtain ⟨g₂, hg₂⟩ := ih (fun s' hs' => hl s' (List.mem_cons_of_mem _ hs')) g₁ (by
        intro x
        rw [sysStep_keys hg₁]
        exact hkeys x)
      refine ⟨g₂, ?_⟩
      rw [List.foldlM_cons, hg₁]
      exact hg₂

theorem buildGraph_keys {systems : List Sys} {g : Graph}
    (h : buildGraph systems = .ok g) : ∀ x, ahas g x = true ↔ x ∈ systems := by
  intro x
  unfold buildGraph at h
  rw [sysFold_keys systems x _ _ _ h]
  exact initGraph_keys

theorem buildGraph_decompose {systems : List Sys} {g : Graph} {s : Sys}
    (hg : buildGraph systems = .ok g) (hs : s ∈ systems) :
    ∃ acc g₁, (∀ x, ahas acc x = true ↔ x ∈ systems) ∧
      sysStep systems acc s = .ok g₁ ∧
      (∀ x y, x ∈ graphGet g₁ y → x ∈ graphGet g y) := by
  obtain ⟨l₁, l₂, hsplit⟩ := List.append_of_mem hs
  unfold buildGraph at hg
  have hg' : (l₁ ++ s :: l₂).foldlM (sysStep systems) (initGraph systems) = .ok g := by
    rw [← hsplit]; exact hg
  rw [List.foldlM_append] at hg'
  obtain ⟨acc, h₁, h₂⟩ := exceptBind_ok hg'
  rw [List.foldlM_cons] at h₂
  obtain ⟨g₁, hstep, hrest⟩ := exceptBind_ok h₂
  refine ⟨acc, g₁, ?_, hstep, ?_⟩
  · intro x
    rw [sysFold_keys systems x _ _ _ h₁]
    exact initGraph_keys
  · intro x y hx
    exact sysFold_mono systems _ _ _ hrest hx

theorem buildGraph_after_intro {systems : List Sys} {g : Graph} {A B : Sys}
    (hg : buildGraph systems = .ok g) (hA : A ∈ systems)
    {r : SRef} (hr : r ∈ A.after) (hres : resolveRef systems r = some B) :
    B ∈ graphGet g A := by
  obtain ⟨acc, g₁, hkeys, hstep, hmono⟩ := buildGraph_decompose hg hA
  refine hmono _ _ ?_
  unfold sysStep addBeforeEdges at hstep
  refine beforeFold_mono systems A _ _ _ hstep ?_
  exact afterFold_intro systems _ _ ((hkeys A).mpr hA) r hr hres

theorem buildGraph_before_intro {systems : List Sys} {g : Graph} {A B : Sys}
    (hg : buildGraph systems = .ok g) (hB : B ∈ systems)
    {r : SRef} (hr : r ∈ B.before) (hres : resolveRef systems r = some A) :
    B ∈ graphGet g A := by
  obtain ⟨acc, g₁, hkeys, hstep, hmono⟩ := buildGraph_decompose hg hB
  refine hmono _ _ ?_
  unfold sysStep addBeforeEdges at hstep
  exact beforeFold_intro systems _ _ _ hstep r hr hres

theorem buildGraph_edge_iff {systems : List Sys} {g : Graph}
    (hg : buildGraph systems = .ok g) (a b : Sys) :
    b ∈ graphGet g a ↔
      (a ∈ systems ∧ ∃ r ∈ a.after, resolveRef systems r = some b) ∨
      (b ∈ systems ∧ ∃ r ∈ b.before, resolveRef systems r = some a) := by
  constructor
  · intro h
    have hg' := hg
    unfold buildGraph at hg'
    rcases sysFold_edge_inv systems systems _ _ hg' h with h0 | ⟨s, hs, hcase⟩
    · rw [graphGet_initGraph] at h0; simp at h0
    · rcases hcase with ⟨hy, r, hr, hres⟩ | ⟨hx, r, hr, hres⟩
      · subst hy; exact Or.inl ⟨hs, r, hr, hres⟩
      · subst hx; exact Or.inr ⟨hs, r, hr, hres⟩
  · rintro (⟨hA, r, hr, hres⟩ | ⟨hB, r, hr, hres⟩)
    · exact buildGraph_after_intro hg hA hr hres
    · exact buildGraph_before_intro hg hB hr hres

theorem buildGraph_ok_requires {systems : List Sys} {g : Graph}
    (hg : buildGraph systems = .ok g) :
    ∀ s ∈ systems, ∀ r ∈ s.before, ∀ d, resolveRef systems r = some d → d ∈ systems := by
  intro s hs r hr d hres
  obtain ⟨acc, g₁, hkeys, hstep, -⟩ := buildGraph_decompose hg hs
  unfold sysStep addBeforeEdges at hstep
  have hd := beforeFold_ok_requires systems s _ _ _ hstep r hr d hres
  exact (hkeys d).mp ((afterFold_keys systems s d _ _).symm.trans hd)

theorem buildGraph_ok_iff (systems : List Sys) :
    (∃ g, buildGraph systems = .ok g) ↔
      ∀ s ∈ systems, ∀ r ∈ s.before, ∀ d, resolveRef systems r = some d → d ∈ systems := by
  constructor
  · rintro ⟨g, hg⟩
    exact buildGraph_ok_requires hg
  · intro hres
    unfold buildGraph
    exact sysFold_ok systems hres systems (fun s hs => hs) (initGraph systems)
      (fun x => initGraph_keys)

theorem exceptBind_error {ε β γ : Type} {e : Except ε β} {f : β → Except ε γ} {err : ε}
    (h : (e >>= f) = .error err) : e = .error err ∨ ∃ b, e = .ok b ∧ f b = .error err := by
  cases e with
  | error e₀ =>
      left
      have h' : (Except.error e₀ : Except ε γ) = .error err := h
      injection h' with h'
      rw [h']
  | ok b => right; exact ⟨b, rfl, h⟩

theorem beforeStep_error {systems : List Sys} {s : Sys} {g : Graph} {r : SRef}
    {e : SortErr} (h : beforeStep systems s g r = .error e) : e = .typeError := by
  cases hres : resolveRef systems r with
  | none => rw [beforeStep_none hres] at h; exact absurd h (by simp)
  | some d =>
      by_cases hd : ahas g d = true
      · rw [beforeStep_some_has hres hd] at h; exact absurd h (by simp)
      · rw [beforeStep_some_not_has hres hd] at h
        injection h with h
        rw [h]

theorem beforeFold_error (systems : List Sys) (s : Sys) :
    ∀ (rs : List SRef) (g : Graph) (e : SortErr),
      rs.foldlM (beforeStep systems s) g = .error e → e = .typeError := by
  intro rs
  induction rs with
  | nil =>
      intro g e h
      have h' : Except.ok g = Except.error e := h
      exact absurd h' (by simp)
  | cons r rest ih =>
      intro g e h
      rw [List.foldlM_cons] at h
      rcases exceptBind_error h with h | ⟨g₁, _, h⟩
      · exact beforeStep_error h
      · exact ih _ _ h

theorem sysStep_error {systems : List Sys} {g : Graph} {s : Sys} {e : SortErr}
    (h : sysStep systems g s = .error e) : e = .typeError := by
  unfold sysStep addBeforeEdges at h
  exact beforeFold_error systems s _ _ _ h

theorem buildGraph_error {systems : List Sys} {e : SortErr}
    (h : buildGraph systems = .error e) : e = .typeError := by
  unfold buildGraph at h
  suffices key : ∀ (l : List Sys) (acc : Graph),
      l.foldlM (sysStep systems) acc = .error e → e = .typeError from
    key systems (initGraph systems) h
  intro l
  induction l with
  | nil =>
      intro acc hc
      have h' : Except.ok acc = Except.error e := hc
      exact absurd h' (by simp)
  | cons s rest ih =>
      intro acc hc
      rw [List.foldlM_cons] at hc
      rcases exceptBind_error hc with hc | ⟨g₁, _, hc⟩
      · exact sysStep_error hc
      · exact ih _ hc

theorem visit_no_typeError (g : Graph) :
    ∀ (fuel : Nat) (s : Sys) (st : DfsSt), visit g fuel s st ≠ .error .typeError := by
  intro fuel
  induction fuel with
  | zero =>
      intro s st h
      unfold visit at h
      by_cases h1 : s ∈ st.visited
      · rw [if_pos h1] at h; exact absurd h (by simp)
      · rw [if_neg h1] at h
        by_cases h2 : s ∈ st.temp
        · rw [if_pos h2] at h
          injection h with h
          exact absurd h (by simp)
        · rw [if_neg h2] at h
          injection h with h
          exact absurd h (by simp)
  | succ f ih =>
      intro s st h
      unfold visit at h
      by_cases h1 : s ∈ st.visited
      · rw [if_pos h1] at h; exact absurd h (by simp)
      · rw [if_neg h1] at h
        by_cases h2 : s ∈ st.temp
        · rw [if_pos h2] at h
          injection h with h
          exact absurd h (by simp)
        · rw [if_neg h2] at h
          have hlist : ∀ (ds : List Sys) (st₂ : DfsSt),
              visitListF (visit g f) ds st₂ ≠ .error .typeError := by
            intro ds
            induction ds with
            | nil => intro st₂ hc; simp [visitListF] at hc
            | cons d rest ihd =>
                intro st₂ hc
                unfold visitListF at hc
                cases hd : visit g f d st₂ with
                | error e =>
                    rw [hd] at hc
                    injection hc with he
                    subst he
                    exact ih d st₂ hd
                | ok st₁ => rw [hd] at hc; exact ihd st₁ hc
          cases hm : visitListF (visit g f) (graphGet g s) { st with temp := s :: st.temp } with
          | error e =>
              rw [hm] at h
              injection h with he
              subst he
              exact hlist _ _ hm
          | ok st₁ => rw [hm] at h; exact absurd h (by simp)

theorem visitMany_no_typeError (g : Graph) (fuel : Nat) :
    ∀ (ds : List Sys) (st : DfsSt),
      visitListF (visit g fuel) ds st ≠ .error .typeError := by
  intro ds
  induction ds with
  | nil => intro st h; simp [visitListF] at h
  | cons d rest ih =>
      intro st h
      unfold visitListF at h
      cases hd : visit g fuel d st with
      | error e =>
          rw [hd] at h
          injection h with he
          subst he
          exact visit_no_typeError g fuel d st hd
      | ok st₁ => rw [hd] at h; exact ih st₁ h

theorem indexOf_append_of_not_mem {σ : Type} [DecidableEq σ] {l₁ : List σ} {a : σ}
    (h : a ∉ l₁) (l₂ : List σ) :
    (l₁ ++ l₂).indexOf a = l₁.length + l₂.indexOf a := by
  induction l₁ with
  | nil => simp
  | cons b rest ih =>
      simp only [List.mem_cons, not_or] at h
      simp only [List.cons_append, List.indexOf_cons_ne _ (Ne.symm h.1), List.length_cons]
      rw [ih h.2]
      omega

theorem visitListF_append_ok {f : Sys → DfsSt → Except SortErr DfsSt} :
    ∀ (l₁ l₂ : List Sys) (st st' : DfsSt),
      visitListF f (l₁ ++ l₂) st = .ok st' →
      ∃ st₁, visitListF f l₁ st = .ok st₁ ∧ visitListF f l₂ st₁ = .ok st' := by
  intro l₁
  induction l₁ with
  | nil => intro l₂ st st' h; exact ⟨st, rfl, h⟩
  | cons d rest ih =>
      intro l₂ st st' h
      rw [List.cons_append] at h
      unfold visitListF at h
      cases hd : f d st with
      | error e => rw [hd] at h; exact absurd h (by simp)
      | ok st₁ =>
          rw [hd] at h
          obtain ⟨st₂, h₁, h₂⟩ := ih l₂ st₁ st' h
          refine ⟨st₂, ?_, h₂⟩
          unfold visitListF
          rw [hd]
          exact h₁

theorem visitListF_ok_avoid {f : Sys → DfsSt → Except SortErr DfsSt} {u : Sys}
    (hf : ∀ d st st', f d st = .ok st' → d ≠ u → u ∉ st.result → u ∉ st'.result) :
    ∀ (ds : List Sys) (st st' : DfsSt), visitListF f ds st = .ok st' →
      (∀ d ∈ ds, d ≠ u) → u ∉ st.result → u ∉ st'.result := by
  intro ds
  induction ds with
  | nil =>
      intro st st' h _ hnot
      injection h with h
      rw [← h]
      exact hnot
  | cons d rest ih =>
      intro st st' h hne hnot
      unfold visitListF at h
      cases hd : f d st with
      | error e => rw [hd] at h; exact absurd h (by simp)
      | ok st₁ =>
          rw [hd] at h
          exact ih st₁ st' h (fun d' hd' => hne d' (List.mem_cons_of_mem _ hd'))
            (hf d st st₁ hd (hne d (by simp)) hnot)

theorem visit_ok_avoid (g : Graph) {u : Sys} (hu : ∀ x, u ∉ graphGet g x) :
    ∀ (fuel : Nat) (s : Sys) (st st' : DfsSt), visit g fuel s st = .ok st' →
      s ≠ u → u ∉ st.result → u ∉ st'.result := by
  intro fuel
  induction fuel with
  | zero =>
      intro s st st' h hne hnot
      unfold visit at h
      by_cases h1 : s ∈ st.visited
      · rw [if_pos h1] at h; injection h with h; rw [← h]; exact hnot
      · rw [if_neg h1] at h
        by_cases h2 : s ∈ st.temp
        · rw [if_pos h2] at h; exact absurd h (by simp)
        · rw [if_neg h2] at h; exact absurd h (by simp)
  | succ f ih =>
      intro s st st' h hne hnot
      unfold visit at h
      by_cases h1 : s ∈ st.visited
      · rw [if_pos h1] at h; injection h with h; rw [← h]; exact hnot
      · rw [if_neg h1] at h
        by_cases h2 : s ∈ st.temp
        · rw [if_pos h2] at h; exact absurd h (by simp)
        · rw [if_neg h2] at h
          cases hm : visitListF (visit g f) (graphGet g s) { st with temp := s :: st.temp } with
          | error e => rw [hm] at h; exact absurd h (by simp)
          | ok st₁ =>
              rw [hm] at h
              injection h with h
              have hu₁ : u ∉ st₁.result :=
                visitListF_ok_avoid ih _ _ _ hm (fun d hd hdu => hu s (hdu ▸ hd)) hnot
              rw [← h]
              simp only [List.mem_append, List.mem_singleton]
              rintro (hc | hc)
              · exact hu₁ hc
              · exact hne hc.symm

theorem visit_ok_isolated (g : Graph) {s : Sys} (hiso : graphGet g s = [])
    {fuel : Nat} {st st' : DfsSt} (h : visit g (fuel + 1) s st = .ok st')
    (hnv : s ∉ st.visited) : st'.result = st.result ++ [s] := by
  unfold visit at h
  rw [if_neg hnv] at h
  by_cases h2 : s ∈ st.temp
  · rw [if_pos h2] at h; exact absurd h (by simp)
  · rw [if_neg h2] at h
    rw [hiso] at h
    have hnil : visitListF (visit g fuel) [] { st with temp := s :: st.temp } =
        .ok { st with temp := s :: st.temp } := rfl
    rw [hnil] at h
    injection h with h
    rw [← h]

theorem transGen_head_edge {α : Type} {r : α → α → Prop} {a b : α}
    (h : Relation.TransGen r a b) : ∃ c, r a c := by
  induction h with
  | single h1 => exact ⟨_, h1⟩
  | tail h1 h2 ih => exact ih

/-- Claim C5 (corrected): given a successful dependency-graph build, the
per-phase topological sort is duplicate-free and contains every
registered system; every system is ordered strictly later than each of
its direct and transitive dependencies; a declared `after` constraint on
a resolved target — or a declared `before` constraint of a registered
system resolving to a target — orders the declaring pair accordingly;
two registered systems that are both untouched by the constraint graph
keep their registration order (the claim's blanket "ties preserve
registration order" is refuted by `c5_stability_counterexample`: a
constrained system may overtake an unconstrained one); a
circular-dependency error names a system on a true constraint cycle, and
a constraint cycle forces exactly that error. -/
theorem c5_topological_sort (systems : List Sys) (g : Graph)
    (hg : buildGraph systems = .ok g) :
    (∀ res, topologicalSort systems = .ok res →
      res.Nodup ∧
      (∀ s ∈ systems, s ∈ res) ∧
      (∀ a ∈ res, ∀ b, Relation.TransGen (edgeRel g) a b →
        b ∈ res ∧ res.indexOf b < res.indexOf a) ∧
      (∀ A ∈ systems, ∀ B,
        ((∃ r ∈ A.after, resolveRef systems r = some B) ∨
          (B ∈ systems ∧ ∃ r ∈ B.before, resolveRef systems r = some A)) →
        B ∈ res ∧ res.indexOf B < res.indexOf A) ∧
      (systems.Nodup → ∀ u v, u ∈ systems → v ∈ systems →
        IsolatedNode g systems u → IsolatedNode g systems v →
        systems.indexOf u < systems.indexOf v →
        res.indexOf u < res.indexOf v)) ∧
    (∀ c, topologicalSort systems = .error (.circular c) →
      Relation.TransGen (edgeRel g) c c) ∧
    ((∃ c, Relation.TransGen (edgeRel g) c c) →
      ∃ c, topologicalSort systems = .error (.circular c)) := by
  have hts : topologicalSort systems = runDfs g systems := by
    show (buildGraph systems >>= fun g => runDfs g systems) = runDfs g systems
    rw [hg]
    rfl
  have hgood0 : GoodSt g ⟨[], [], []⟩ := ⟨rfl, List.nodup_nil, by intro x hx; simp at hx⟩
  have hok : ∀ res, topologicalSort systems = .ok res →
      res.Nodup ∧
      (∀ s ∈ systems, s ∈ res) ∧
      (∀ a ∈ res, ∀ b, Relation.TransGen (edgeRel g) a b →
        b ∈ res ∧ res.indexOf b < res.indexOf a) ∧
      (∀ A ∈ systems, ∀ B,
        ((∃ r ∈ A.after, resolveRef systems r = some B) ∨
          (B ∈ systems ∧ ∃ r ∈ B.before, resolveRef systems r = some A)) →
        B ∈ res ∧ res.indexOf B < res.indexOf A) ∧
      (systems.Nodup → ∀ u v, u ∈ systems → v ∈ systems →
        IsolatedNode g systems u → IsolatedNode g systems v →
        systems.indexOf u < systems.indexOf v →
        res.indexOf u < res.indexOf v) := by
    intro res hr
    rw [hts] at hr
    unfold runDfs at hr
    cases hm : visitMany g (fuelBound g systems) systems ⟨[], [], []⟩ with
    | error e => rw [hm] at hr; exact absurd hr (by simp)
    | ok stF =>
        rw [hm] at hr
        injection hr with hr
        subst hr
        unfold visitMany at hm
        have hgoodF : GoodSt g stF :=
          visitListF_ok_good (visit_ok_good g (fuelBound g systems)) systems _ _ hm hgood0
        have hcompl : ∀ s ∈ systems, s ∈ stF.result := by
          intro s hs
          have hv := visitListF_ok_all_visited g (fuelBound g systems) systems _ _ hm s hs
          rw [hgoodF.1] at hv
          exact hv
        have hord : ∀ a ∈ stF.result, ∀ b, Relation.TransGen (edgeRel g) a b →
            b ∈ stF.result ∧ stF.result.indexOf b < stF.result.indexOf a := by
          intro a ha b htg
          induction htg with
          | single h1 => exact hgoodF.2.2 a ha _ h1
          | tail htg' h1 ih =>
              obtain ⟨hbmid, hltmid⟩ := ih
              obtain ⟨hb, hlt2⟩ := hgoodF.2.2 _ hbmid _ h1
              exact ⟨hb, hlt2.trans hltmid⟩
        refine ⟨hgoodF.2.1, hcompl, hord, ?_, ?_⟩
        · intro A hA B hcon
          have hedge : B ∈ graphGet g A := by
            rcases hcon with ⟨r, hr', hres⟩ | ⟨hB, r, hr', hres⟩
            · exact buildGraph_after_intro hg hA hr' hres
            · exact buildGraph_before_intro hg hB hr' hres
          exact hord A (hcompl A hA) B (Relation.TransGen.single hedge)
        · intro hnd u v hu hv hisoU hisoV hlt
          have huniv : ∀ w : Sys, IsolatedNode g systems w → ∀ x, w ∉ graphGet g x := by
            intro w hiso x hx
            exact hiso.2 x ((buildGraph_keys hg x).mp (graphGet_key hx)) hx
          obtain ⟨p₁, p₂, hsplit⟩ := List.append_of_mem hu
          have hndS := hnd
          rw [hsplit] at hndS
          have hnd' := List.nodup_append.mp hndS
          have hup₁ : u ∉ p₁ := fun hc => hnd'.2.2 hc (by simp)
          have hidxU : systems.indexOf u = p₁.length := by
            rw [hsplit, indexOf_append_of_not_mem hup₁]
            simp
          have hvne : v ≠ u := by
            intro hc
            rw [hc] at hlt
            omega
          have hvp₂ : v ∈ p₂ := by
            have hv' := hv
            rw [hsplit] at hv'
            rcases List.mem_append.mp hv' with hc | hc
            · exfalso
              have hvlt : systems.indexOf v < p₁.length := by
                rw [hsplit, List.indexOf_append_of_mem hc]
                exact List.indexOf_lt_length.mpr hc
              omega
            · rcases List.mem_cons.mp hc with hc | hc
              · exact absurd hc hvne
              · exact hc
          have hvnotp₁ : v ∉ p₁ := fun hc => hnd'.2.2 hc (List.mem_cons_of_mem _ hvp₂)
          have hp₂nd : p₂.Nodup := (List.nodup_cons.mp hnd'.2.1).2
          obtain ⟨q₁, q₂, hq⟩ := List.append_of_mem hvp₂
          have hvnotq₁ : v ∉ q₁ := by
            rw [hq] at hp₂nd
            exact fun hc => (List.nodup_append.mp hp₂nd).2.2 hc (by simp)
          obtain ⟨fb, hfb⟩ : ∃ fb, fuelBound g systems = fb + 1 :=
            ⟨(nodeUniverse g systems).length, rfl⟩
          have hm₁ : visitListF (visit g (fb + 1)) (p₁ ++ u :: (q₁ ++ v :: q₂))
              ⟨[], [], []⟩ = .ok stF := by
            rw [← hfb, ← hq, ← hsplit]
            exact hm
          obtain ⟨st₁, hp₁run, hrest₁⟩ :=
            visitListF_append_ok p₁ (u :: (q₁ ++ v :: q₂)) _ _ hm₁
          unfold visitListF at hrest₁
          cases hu₂ : visit g (fb + 1) u st₁ with
          | error e => rw [hu₂] at hrest₁; exact absurd hrest₁ (by simp)
          | ok st₂ =>
              rw [hu₂] at hrest₁
              obtain ⟨st₃, hq₁run, hrest₂⟩ :=
                visitListF_append_ok q₁ (v :: q₂) _ _ hrest₁
              have hGood₁ : GoodSt g st₁ :=
                visitListF_ok_good (visit_ok_good g (fb + 1)) _ _ _ hp₁run hgood0
              have hUnotIn₁ : u ∉ st₁.result :=
                visitListF_ok_avoid (visit_ok_avoid g (huniv u hisoU) (fb + 1)) _ _ _
                  hp₁run (fun d hd hdu => hup₁ (hdu ▸ hd)) (by simp)
              have hVnotIn₁ : v ∉ st₁.result :=
                visitListF_ok_avoid (visit_ok_avoid g (huniv v hisoV) (fb + 1)) _ _ _
                  hp₁run (fun d hd hdv => hvnotp₁ (hdv ▸ hd)) (by simp)
              have hures : st₂.result = st₁.result ++ [u] :=
                visit_ok_isolated g hisoU.1 hu₂ (by rw [hGood₁.1]; exact hUnotIn₁)
              have hVnotIn₂ : v ∉ st₂.result := by
                rw [hures]
                simp only [List.mem_append, List.mem_singleton]
                rintro (hc | hc)
                · exact hVnotIn₁ hc
                · exact hvne hc
              have hVnotIn₃ : v ∉ st₃.result :=
                visitListF_ok_avoid (visit_ok_avoid g (huniv v hisoV) (fb + 1)) _ _ _
                  hq₁run (fun d hd hdv => hvnotq₁ (hdv ▸ hd)) hVnotIn₂
              obtain ⟨t₁, -, ht₁⟩ :=
                visitListF_ok_extend (visit_ok_extend g (fb + 1)) _ _ _ hq₁run
              obtain ⟨t₂, -, ht₂⟩ :=
                visitListF_ok_extend (visit_ok_extend g (fb + 1)) _ _ _ hrest₂
              have huF : stF.result = (st₁.result ++ [u]) ++ (t₁ ++ t₂) := by
                rw [ht₂, ht₁, hures, List.append_assoc]
              have hVnot₁₂ : v ∉ st₁.result ++ [u] := by
                rw [← hures]
                exact hVnotIn₂
              have hidxu : stF.result.indexOf u = st₁.result.length := by
                rw [huF, List.indexOf_append_of_mem (by simp : u ∈ st₁.result ++ [u]),
                  indexOf_append_self hUnotIn₁]
              have hidxv : stF.result.indexOf v =
                  (st₁.result ++ [u]).length + (t₁ ++ t₂).indexOf v := by
                rw [huF, indexOf_append_of_not_mem hVnot₁₂]
              rw [hidxu, hidxv]
              simp only [List.length_append, List.length_singleton]
              omega
  have hcirc : ∀ c, topologicalSort systems = .error (.circular c) →
      Relation.TransGen (edgeRel g) c c := by
    intro c hc
    rw [hts] at hc
    unfold runDfs at hc
    cases hm2 : visitMany g (fuelBound g systems) systems ⟨[], [], []⟩ with
    | error e2 =>
        rw [hm2] at hc
        injection hc with he
        subst he
        exact visitMany_circular_cycle g _ systems ⟨[], [], []⟩ c rfl hm2
    | ok st => rw [hm2] at hc; exact absurd hc (by simp)
  refine ⟨hok, hcirc, ?_⟩
  rintro ⟨c, hc⟩
  cases hres : topologicalSort systems with
  | ok res =>
      exfalso
      obtain ⟨-, hcompl, hord, -, -⟩ := hok res hres
      obtain ⟨d, hd⟩ := transGen_head_edge hc
      have hcs : c ∈ systems := (buildGraph_keys hg c).mp (graphGet_key hd)
      obtain ⟨-, hlt⟩ := hord c (hcompl c hcs) c hc
      omega
  | error e =>
      cases e with
      | circular c2 => exact ⟨c2, rfl⟩
      | fuelOut =>
          exfalso
          rw [hts] at hres
          exact runDfs_not_fuelOut g systems hres
      | typeError =>
          exfalso
          rw [hts] at hres
          unfold runDfs at hres
          cases hm2 : visitMany g (fuelBound g systems) systems ⟨[], [], []⟩ with
          | error e2 =>
              rw [hm2] at hres
              injection hres with he
              subst he
              exact visitMany_no_typeError g _ systems ⟨[], [], []⟩ hm2
          | ok st => rw [hm2] at hres; exact absurd hres (by simp)

theorem c5_topological_sort_witness :
    buildGraph [c5A, c5B, c5C] = .ok c5G ∧
    [c5C, c5A, c5B].indexOf c5C < [c5C, c5A, c5B].indexOf c5A :=
  ⟨rfl, (((c5_topological_sort [c5A, c5B, c5C] c5G rfl).1 [c5C, c5A, c5B] rfl).2.2.2.1
    c5A (by decide) c5C (Or.inl ⟨SRef.byName "C", by decide, by decide⟩)).2⟩

/-- Claim C10 (corrected): a `before` or `after` constraint naming a
system name that resolves to no registered system is silently dropped —
it produces no edge of the dependency graph and never makes the build
fail, and the edges of a successfully built graph are exactly those of
the resolved constraints; but an *instance* reference always resolves,
even to a system object not registered in the phase: in `after` it
injects the foreign instance as a dependency entry (so the sort emits
it, see `c10_foreign_instance_counterexample`), and in `before` a
foreign target is precisely what makes the build crash with the JS
`TypeError` — the build succeeds exactly when every resolved `before`
target is registered, and its only failure is that `TypeError`. -/
theorem c10_unresolved_refs (systems : List Sys) :
    (∀ g, buildGraph systems = .ok g → ∀ a b : Sys,
      b ∈ graphGet g a ↔
        ((a ∈ systems ∧ ∃ r ∈ a.after, resolveRef systems r = some b) ∨
         (b ∈ systems ∧ ∃ r ∈ b.before, resolveRef systems r = some a))) ∧
    ((∃ g, buildGraph systems = .ok g) ↔
      ∀ s ∈ systems, ∀ r ∈ s.before, ∀ d,
        resolveRef systems r = some d → d ∈ systems) ∧
    (∀ e, buildGraph systems = .error e → e = .typeError) ∧
    (∀ n, resolveRef systems (.byName n) = none ↔
      ∀ s ∈ systems, ¬ s.name = some n) ∧
    (∀ i nm, resolveRef systems (.inst i nm) ≠ none) := by
  refine ⟨?_, buildGraph_ok_iff systems, ?_, ?_, ?_⟩
  · intro g hg a b
    exact buildGraph_edge_iff hg a b
  · intro e he
    exact buildGraph_error he
  · intro n
    unfold resolveRef
    rw [List.find?_eq_none]
    constructor
    · intro h s hs hname
      exact h s (List.mem_reverse.mpr hs) (beq_iff_eq.mpr hname)
    · intro h s hs hbeq
      exact h s (List.mem_reverse.mp hs) (beq_iff_eq.mp hbeq)
  · intro i nm
    simp [resolveRef]

theorem c10_unresolved_refs_witness :
    buildGraph [c10D] = .ok c10G ∧
    (c10F ∈ graphGet c10G c10D ↔
      ((c10D ∈ [c10D] ∧ ∃ r ∈ c10D.after, resolveRef [c10D] r = some c10F) ∨
       (c10F ∈ [c10D] ∧ ∃ r ∈ c10F.before, resolveRef [c10D] r = some c10D))) :=
  ⟨rfl, (c10_unresolved_refs [c10D]).1 c10G rfl c10D c10F⟩

end FFG

